import Mathlib

/-!
Verification of the grm shared-resource engine: the repository-path codec
(RepoInfo), the repository/worktree scanner (RepoScanner) and the
shared-resource synchronization engine (SharedResource), shallowly embedded
from the Rust sources in src/core together with the filesystem capability
they are written against.

Modelling conventions:
- Rust strings are modelled as lists of characters (abbrev Str).
- A filesystem path is modelled in component-normalized form: a flag saying
  whether the path is absolute plus the list of normal components, mirroring
  the result of Rust Path::components() (duplicate separators and interior
  "." components are normalized away at read time; ".." is kept verbatim).
- The filesystem state is a finite map from paths to entries (file,
  directory, or symbolic link with its target), plus the current and home
  directories, following the FileSystem port.  Path::exists() and is_dir()
  follow symbolic links, so the model resolves link chains with fuel.
- Fallible operations run in a state-passing monad M that keeps the state
  reached at the moment of failure, since the engine performs no rollback.
-/

namespace Grm

/-- Decidable equality for Except results, used to evaluate the model on
concrete inputs. -/
instance {ε α : Type} [DecidableEq ε] [DecidableEq α] : DecidableEq (Except ε α) :=
  fun a b =>
    match a, b with
    | .ok x, .ok y =>
      match decEq x y with
      | isTrue h => isTrue (by rw [h])
      | isFalse h => isFalse (fun hc => h (Except.ok.inj hc))
    | .error x, .error y =>
      match decEq x y with
      | isTrue h => isTrue (by rw [h])
      | isFalse h => isFalse (fun hc => h (Except.error.inj hc))
    | .ok _, .error _ => isFalse (fun hc => Except.noConfusion hc)
    | .error _, .ok _ => isFalse (fun hc => Except.noConfusion hc)

/-- Rust strings, modelled as character lists. -/
abbrev Str := List Char

/-- Split a character list at every occurrence of the separator, keeping
empty pieces, like Rust str::split. -/
def splitSep (sep : Char) : Str → List Str
  | [] => [[]]
  | c :: rest =>
    match splitSep sep rest with
    | [] => [[]]
    | h :: t => if c = sep then [] :: h :: t else (c :: h) :: t

/-- Split at the first occurrence of the separator, like Rust
str::splitn(2, sep): none when the separator does not occur. -/
def breakAt (sep : Char) : Str → Option (Str × Str)
  | [] => none
  | c :: rest =>
    if c = sep then some ([], rest)
    else match breakAt sep rest with
      | none => none
      | some (a, b) => some (c :: a, b)

/-- Drop every repetition of a nonempty pattern from the front of a list,
the reversed-order core of Rust str::trim_end_matches.  The fuel argument
makes the recursion structural; one unit per character always suffices. -/
def dropRep (pat : Str) : Nat → Str → Str
  | 0, l => l
  | fuel + 1, l =>
    if pat ≠ [] ∧ pat.isPrefixOf l then dropRep pat fuel (l.drop pat.length)
    else l

/-- Rust str::trim_end_matches for a fixed pattern. -/
def trimEndMatches (pat : Str) (l : Str) : Str :=
  (dropRep pat.reverse (l.length + 1) l.reverse).reverse

/-- Rust str::trim (drop whitespace at both ends). -/
def trimStr (l : Str) : Str :=
  ((l.dropWhile Char.isWhitespace).reverse.dropWhile Char.isWhitespace).reverse

/-- Concatenate pieces with a separator character between them, like Rust
slice::join on strings. -/
def joinSep (sep : Char) : List Str → Str
  | [] => []
  | [x] => x
  | x :: y :: rest => x ++ sep :: joinSep sep (y :: rest)

/-- Component normalization applied by Rust Path::components() to a string
glued into the middle of a path: split on the separator and drop empty and
"." pieces. -/
def cleanParts (s : Str) : List Str :=
  (splitSep '/' s).filter (fun c => decide (c ≠ [] ∧ c ≠ ['.']))

/-- A filesystem path in component form: absoluteness flag plus the list of
normal components, as produced by Rust Path::components(). -/
structure FsPath where
  isAbs : Bool
  comps : List Str
deriving DecidableEq, Repr

namespace FsPath

/-- The component list with the root directory marker made explicit, the
view Rust strip_prefix and components() work on. -/
def toComps (p : FsPath) : List Str :=
  (if p.isAbs then [['/']] else []) ++ p.comps

/-- Rust Path::join with an already component-normalized path: an absolute
argument replaces the whole path, a relative one appends its components. -/
def join (p q : FsPath) : FsPath :=
  if q.isAbs then q else ⟨p.isAbs, p.comps ++ q.comps⟩

/-- Rust Path::join with a raw string argument: the string is parsed into
components at read time (so duplicate separators and "." pieces vanish). -/
def joinStr (p : FsPath) (s : Str) : FsPath :=
  if s.head? = some '/' then ⟨true, cleanParts s⟩
  else if p.isAbs then ⟨true, p.comps ++ cleanParts s⟩
  else ⟨false, p.comps ++ cleanParts s⟩

/-- Rust Path::parent: none for the root directory and the empty path. -/
def parent? (p : FsPath) : Option FsPath :=
  match p.comps with
  | [] => none
  | _ :: _ => some ⟨p.isAbs, p.comps.dropLast⟩

/-- Whether base is a component prefix of p (p equal to or nested below
base), Rust Path::starts_with. -/
def isUnder (p base : FsPath) : Bool :=
  base.toComps.isPrefixOf p.toComps

/-- Rust Path::strip_prefix: on success the remaining components (the first
of which is the root marker in the degenerate absolute case). -/
def stripPre (p base : FsPath) : Option (List Str) :=
  if base.toComps.isPrefixOf p.toComps then
    some (p.toComps.drop base.toComps.length)
  else none

/-- Repackage the component list returned by stripPre as a path. -/
def ofComps (cs : List Str) : FsPath :=
  if cs.head? = some ['/'] then ⟨true, cs.tail⟩ else ⟨false, cs⟩

/-- Rust Path::to_string_lossy on a component-normalized path. -/
def render (p : FsPath) : Str :=
  (if p.isAbs then ['/'] else []) ++ joinSep '/' p.comps

end FsPath

/-- Error type of the repository-path codec (RepositoryError::Invalid). -/
inductive RepoErr where
  | invalid (msg : Str)
deriving DecidableEq, Repr

/-- Identity of a logical repository (core/repo_info.rs). -/
structure RepoInfo where
  host : Str
  user : Str
  repo : Str
  branch : Option Str
deriving DecidableEq, Repr

namespace RepoInfo

/-- One iteration of the format loop in RepoInfo::from_url: strip the given
prefix and split host from the user/repo tail at the first separator. -/
def tryFormat (pre : Str) (sep : Char) (url : Str) : Option (Except RepoErr RepoInfo) :=
  if pre.isPrefixOf url then
    let rest := url.drop pre.length
    some (match breakAt sep rest with
      | none => .error (.invalid url)
      | some (host, path) =>
        match splitSep '/' path with
        | [] => .error (.invalid url)
        | [_] => .error (.invalid url)
        | user :: repoRaw :: _ =>
          .ok ⟨host, user, trimEndMatches (".git".data) repoRaw, none⟩)
  else none

/-- RepoInfo::from_url: try https://, ssh://git@ and git@ shapes in that
order against the trimmed input. -/
def from_url (url : Str) : Except RepoErr RepoInfo :=
  let u := trimStr url
  match tryFormat ("https://".data) '/' u with
  | some r => r
  | none =>
    match tryFormat ("ssh://git@".data) '/' u with
    | some r => r
    | none =>
      match tryFormat ("git@".data) ':' u with
      | some r => r
      | none => .error (.invalid u)

/-- RepoInfo::from_path: strip the root, read host and user from the first
two components and split the third at the first plus sign; later components
are branch parts rejoined with a slash. -/
def from_path (root path : FsPath) : Except RepoErr RepoInfo :=
  match path.stripPre root with
  | none => .error (.invalid ("not under root".data))
  | some components =>
    match components with
    | host :: user :: repoWithBranch :: remaining =>
      match breakAt '+' repoWithBranch with
      | some (repo, branchFirst) =>
        let branch :=
          if remaining ≠ [] then some (joinSep '/' (branchFirst :: remaining))
          else if branchFirst ≠ [] then some branchFirst
          else none
        .ok ⟨host, user, repo, branch⟩
      | none => .ok ⟨host, user, repoWithBranch, none⟩
    | _ => .error (.invalid ("not managed structure".data))

/-- RepoInfo::build_repo_path: root/host/user/repo+branch. -/
def build_repo_path (info : RepoInfo) (root : FsPath) (branch : Str) : FsPath :=
  ((root.joinStr info.host).joinStr info.user).joinStr (info.repo ++ '+' :: branch)

/-- RepoInfo::build_shared_path: root/.shared/host/user/repo/relative. -/
def build_shared_path (info : RepoInfo) (root : FsPath) (relative : FsPath) : FsPath :=
  ((((root.joinStr (".shared".data)).joinStr info.host).joinStr info.user).joinStr
    info.repo).join relative

end RepoInfo

/-- A filesystem entry: regular file, directory, or symbolic link with the
target it was created with. -/
inductive FsEntry where
  | file
  | dir
  | symlink (target : FsPath)
deriving DecidableEq, Repr

/-- The filesystem state seen through the FileSystem port: a finite map
from paths to entries plus the ambient current and home directories. -/
structure FS where
  entries : List (FsPath × FsEntry)
  cwd : FsPath
  home : FsPath
deriving DecidableEq, Repr

namespace FS

/-- Entry stored at a path, if any (no symlink following). -/
def lookup (fs : FS) (p : FsPath) : Option FsEntry :=
  (fs.entries.find? (fun e => e.1 = p)).map (fun e => e.2)

/-- Resolve a chain of symbolic links with fuel. -/
def resolve (fs : FS) : Nat → FsPath → Option FsEntry
  | 0, _ => none
  | n + 1, p =>
    match fs.lookup p with
    | some (.symlink t) => fs.resolve n t
    | e => e

/-- Fuel that always suffices to resolve a link chain over this state. -/
def resolveFuel (fs : FS) : Nat :=
  fs.entries.length + 1

/-- Rust Path::exists as used by UnixFs: true when the path resolves,
through symbolic links, to an existing entry (a dangling link does not
exist). -/
def pathExists (fs : FS) (p : FsPath) : Bool :=
  (fs.resolve fs.resolveFuel p).isSome

/-- FileSystem::is_symlink: the path itself is a symbolic link. -/
def is_symlink (fs : FS) (p : FsPath) : Bool :=
  match fs.lookup p with
  | some (.symlink _) => true
  | _ => false

/-- Modelled from the spec: the FileSystem port method is_dir, declared in
the spec's capability table ("true iff path is a directory (following
symlinks)") but whose concrete adapter implementation is not under src/. -/
def is_dir (fs : FS) (p : FsPath) : Bool :=
  match fs.resolve fs.resolveFuel p with
  | some .dir => true
  | _ => false

/-- Rust Path::is_file (follows symlinks). -/
def isFile (fs : FS) (p : FsPath) : Bool :=
  match fs.resolve fs.resolveFuel p with
  | some .file => true
  | _ => false

/-- FileSystem::is_git_repository: path/.git exists and is a directory or
a file (UnixFs adapter). -/
def is_git_repository (fs : FS) (p : FsPath) : Bool :=
  let gitPath := p.join ⟨false, [".git".data]⟩
  fs.pathExists gitPath && (fs.is_dir gitPath || fs.isFile gitPath)

/-- FileSystem::read_dir: the immediate children of a directory, in the
order the state stores them; an error when the path is missing or not a
directory. -/
def readDir (fs : FS) (p : FsPath) : Except Str (List FsPath) :=
  match fs.lookup p with
  | none => .error ("Directory not found".data)
  | some .dir => .ok ((fs.entries.filter (fun e => e.1.parent? = some p)).map (fun e => e.1))
  | some _ => .error ("Not a directory".data)

/-- Insert or overwrite the entry at a path. -/
def insertEntry (fs : FS) (p : FsPath) (e : FsEntry) : FS :=
  { fs with entries := (fs.entries.filter (fun x => x.1 ≠ p)) ++ [(p, e)] }

/-- FileSystem::create_dir (create_dir_all): create the path and every
missing ancestor as a directory, leaving existing entries alone. -/
def create_dir (fs : FS) (p : FsPath) : FS :=
  (List.range p.comps.length).foldl
    (fun acc i =>
      let pre : FsPath := ⟨p.isAbs, p.comps.take (i + 1)⟩
      match acc.lookup pre with
      | none => { acc with entries := acc.entries ++ [(pre, .dir)] }
      | some _ => acc)
    fs

/-- FileSystem::create_symlink: place a symbolic link to target at link. -/
def create_symlink (fs : FS) (target link : FsPath) : FS :=
  fs.insertEntry link (.symlink target)

/-- FileSystem::remove: recursive removal for a directory (not following
symlinks), single removal otherwise; an error when nothing is there. -/
def removeFs (fs : FS) (p : FsPath) : Except Str FS :=
  match fs.lookup p with
  | none => .error ("No such file or directory".data)
  | some .dir => .ok { fs with entries := fs.entries.filter (fun e => ¬ e.1.isUnder p) }
  | some _ => .ok { fs with entries := fs.entries.filter (fun e => e.1 ≠ p) }

/-- The state with the single entry at a path dropped (the effect of
FileSystem::remove on a non-directory). -/
def removeKey (fs : FS) (p : FsPath) : FS :=
  { fs with entries := fs.entries.filter (fun e => e.1 ≠ p) }

/-- The state with the whole subtree at a path dropped (the effect of
FileSystem::remove on a directory). -/
def removeSub (fs : FS) (p : FsPath) : FS :=
  { fs with entries := fs.entries.filter (fun e => ¬ e.1.isUnder p) }

/-- FileSystem::rename: move the entry (with its whole subtree when it is
a directory) from one path to another, replacing whatever entry previously
occupied the destination (fs::rename overwrite semantics). -/
def renameFs (fs : FS) (src dst : FsPath) : Except Str FS :=
  match fs.lookup src with
  | none => .error ("No such file or directory".data)
  | some .dir =>
    .ok { fs with entries := (fs.entries.filter
        (fun e => e.1.isUnder src ∨ e.1 ≠ dst)).map (fun e =>
      if e.1.isUnder src then
        (dst.join ⟨false, e.1.comps.drop src.comps.length⟩, e.2)
      else e) }
  | some _ =>
    .ok { fs with entries := (fs.entries.filter
        (fun e => e.1 = src ∨ e.1 ≠ dst)).map (fun e =>
      if e.1 = src then (dst, e.2) else e) }

/-- UnixFs::normalize component loop: root marker is kept, a "~" component
resets the accumulator to the home directory, the first normal component
pulls in the base, "." is skipped and ".." pops — the first-component flag
is cleared by every component, including skipped ones. -/
def normLoop (home base : FsPath) : List Str → Bool → FsPath → FsPath
  | [], _, acc => acc
  | c :: rest, first, acc =>
    if c = "~".data then normLoop home base rest false home
    else if c = ".".data then normLoop home base rest false acc
    else if c = "..".data then
      normLoop home base rest false ⟨acc.isAbs, acc.comps.dropLast⟩
    else if first then normLoop home base rest false ⟨base.isAbs, base.comps ++ [c]⟩
    else normLoop home base rest false ⟨acc.isAbs, acc.comps ++ [c]⟩

/-- UnixFs::normalize: empty input is an error; otherwise run the
component loop, starting past the root marker for absolute paths. -/
def normalize (fs : FS) (p base : FsPath) : Except Str FsPath :=
  if p.isAbs = false ∧ p.comps = [] then .error ("Cannot normalize an empty path".data)
  else if p.isAbs then .ok (normLoop fs.home base p.comps false ⟨true, []⟩)
  else .ok (normLoop fs.home base p.comps true ⟨false, []⟩)

end FS

/-- The error type of the engine (errors.rs GrmError, restricted to the
variants the core can produce). -/
inductive GrmError where
  | notFound (msg : Str)
  | fileSystem (msg : Str)
  | scan (msg : Str)
  | ioErr (msg : Str)
deriving DecidableEq, Repr

/-- State-passing fallible computations: the state reached at the moment of
failure is kept, because the engine never rolls back partial mutations. -/
def M (α : Type) : Type :=
  FS → Except (GrmError × FS) (α × FS)

/-- Run a computation on an initial state. -/
def M.run {α : Type} (x : M α) (s : FS) : Except (GrmError × FS) (α × FS) := x s

/-- Final state of a successful run. -/
def okState {α : Type} : Except (GrmError × FS) (α × FS) → Option FS
  | .ok (_, s) => some s
  | .error _ => none

/-- Value of a successful run. -/
def okVal {α : Type} : Except (GrmError × FS) (α × FS) → Option α
  | .ok (a, _) => some a
  | .error _ => none

/-- Error and state-at-failure of a failed run. -/
def errOf {α : Type} : Except (GrmError × FS) (α × FS) → Option (GrmError × FS)
  | .ok _ => none
  | .error es => some es


instance : Monad M where
  pure a := fun s => .ok (a, s)
  bind x f := fun s =>
    match x s with
    | .error es => .error es
    | .ok (a, s1) => f a s1
theorem M.run_bind {α β : Type} (x : M α) (f : α → M β) (s : FS) :
    M.run (x >>= f) s =
      match M.run x s with
      | .error es => .error es
      | .ok (a, s1) => M.run (f a) s1 := rfl

theorem M.run_pure {α : Type} (a : α) (s : FS) :
    M.run (pure a : M α) s = .ok (a, s) := rfl



/-- Read the whole state. -/
def mGet : M FS := fun s => .ok (s, s)

/-- Replace the whole state. -/
def mSet (s1 : FS) : M Unit := fun _ => .ok ((), s1)

/-- Fail with an engine error, keeping the current state. -/
def mThrow {α : Type} (e : GrmError) : M α := fun s => .error (e, s)

/-- FileSystem::current_dir lifted into M. -/
def mCurrentDir : M FsPath := fun s => .ok (s.cwd, s)

/-- FileSystem::normalize lifted into M. -/
def mNormalize (p base : FsPath) : M FsPath := fun s =>
  match s.normalize p base with
  | .ok q => .ok (q, s)
  | .error m => .error (.fileSystem m, s)

/-- FileSystem::read_dir lifted into M. -/
def mReadDir (p : FsPath) : M (List FsPath) := fun s =>
  match s.readDir p with
  | .ok l => .ok (l, s)
  | .error m => .error (.fileSystem m, s)

/-- FileSystem::create_dir lifted into M. -/
def mCreateDir (p : FsPath) : M Unit := fun s => .ok ((), s.create_dir p)

/-- FileSystem::create_symlink lifted into M. -/
def mCreateSymlink (target link : FsPath) : M Unit := fun s =>
  .ok ((), s.create_symlink target link)

/-- FileSystem::remove lifted into M. -/
def mRemove (p : FsPath) : M Unit := fun s =>
  match s.removeFs p with
  | .ok s1 => .ok ((), s1)
  | .error m => .error (.fileSystem m, s)

/-- FileSystem::rename lifted into M. -/
def mRename (src dst : FsPath) : M Unit := fun s =>
  match s.renameFs src dst with
  | .ok s1 => .ok ((), s1)
  | .error m => .error (.fileSystem m, s)

/-- The for-loop body of scan_repositories over the filtered directories:
emit a repository directly, otherwise extend with the recursive scan
(passed in as rec). -/
def scanDirs (fs : FS) (rec : FsPath → Except GrmError (List FsPath)) :
    List FsPath → Except GrmError (List FsPath)
  | [] => .ok []
  | d :: ds =>
    if fs.is_git_repository d then
      match scanDirs fs rec ds with
      | .ok rest => .ok (d :: rest)
      | .error e => .error e
    else
      match rec d with
      | .error e => .error e
      | .ok sub =>
        match scanDirs fs rec ds with
        | .ok rest => .ok (sub ++ rest)
        | .error e => .error e

/-- RepoScanner::scan_repositories on one directory: list the entries,
keep non-symlink directories, emit repositories and recurse into the rest.
The fuel argument only bounds the recursion depth of the model; the
traversal itself is the Rust one. -/
def scanRepos (fs : FS) : Nat → FsPath → Except GrmError (List FsPath)
  | 0, _ => .error (.scan ("scan recursion bound exceeded".data))
  | n + 1, p =>
    match fs.readDir p with
    | .error e => .error (.scan e)
    | .ok entries =>
      scanDirs fs (scanRepos fs n)
        (entries.filter (fun q => !fs.is_symlink q && fs.is_dir q))

/-- The entry list a directory shows to the scanner (empty when listing
fails; the characterization below is only used where the scan succeeded,
which forces every traversed listing to have succeeded). -/
def readDirList (fs : FS) (p : FsPath) : List FsPath :=
  match fs.readDir p with
  | .ok l => l
  | .error _ => []

/-- The paths scan_repositories emits from a starting directory: a
non-symlink directory child that is a repository, or anything reachable
through a non-symlink, non-repository directory child. -/
inductive ScanReach (fs : FS) : FsPath → FsPath → Prop where
  | repo (p q : FsPath) : q ∈ readDirList fs p → fs.is_symlink q = false →
      fs.is_dir q = true → fs.is_git_repository q = true → ScanReach fs p q
  | deeper (p d q : FsPath) : d ∈ readDirList fs p → fs.is_symlink d = false →
      fs.is_dir d = true → fs.is_git_repository d = false → ScanReach fs d q →
      ScanReach fs p q

/-- The directories whose entry listing scan_repositories consults: the
root itself, and every non-symlink, non-repository directory child of a
consulted directory. -/
inductive ScanVisit (fs : FS) (root : FsPath) : FsPath → Prop where
  | start : ScanVisit fs root root
  | step (p d : FsPath) : ScanVisit fs root p → d ∈ readDirList fs p →
      fs.is_symlink d = false → fs.is_dir d = true →
      fs.is_git_repository d = false → ScanVisit fs root d

/-- Recursion depth bound that always suffices for this state: one more
than the longest stored path. -/
def scanFuel (fs : FS) : Nat :=
  (fs.entries.map (fun e => e.1.comps.length)).foldl max 0 + 2

/-- RepoScanner::scan_repositories. -/
def scan_repositories (fs : FS) (root : FsPath) : Except GrmError (List FsPath) :=
  scanRepos fs (scanFuel fs) root

/-- RepoScanner::scan_worktrees: keep the scanned repositories whose
rendered path starts with the rendered root/host/user/repo+ prefix. -/
def scan_worktrees (fs : FS) (root : FsPath) (info : RepoInfo) :
    Except GrmError (List FsPath) :=
  match scan_repositories fs root with
  | .error e => .error e
  | .ok allRepos =>
    let pre := (info.build_repo_path root []).render
    .ok (allRepos.filter (fun p => pre.isPrefixOf p.render))

/-- scan_worktrees lifted into M (the scanner is read-only). -/
def mScanWorktrees (root : FsPath) (info : RepoInfo) : M (List FsPath) := fun s =>
  match scan_worktrees s root info with
  | .ok l => .ok (l, s)
  | .error e => .error (e, s)

theorem M.run_mGet (s : FS) : M.run mGet s = .ok (s, s) := rfl

theorem M.run_mThrow {α : Type} (e : GrmError) (s : FS) :
    M.run (mThrow e : M α) s = .error (e, s) := rfl

theorem M.run_mCurrentDir (s : FS) : M.run mCurrentDir s = .ok (s.cwd, s) := rfl

theorem M.run_mNormalize (p base : FsPath) (s : FS) :
    M.run (mNormalize p base) s =
      match s.normalize p base with
      | .ok q => .ok (q, s)
      | .error m => .error (.fileSystem m, s) := rfl

theorem M.run_mReadDir (p : FsPath) (s : FS) :
    M.run (mReadDir p) s =
      match s.readDir p with
      | .ok l => .ok (l, s)
      | .error m => .error (.fileSystem m, s) := rfl

theorem M.run_mCreateDir (p : FsPath) (s : FS) :
    M.run (mCreateDir p) s = .ok ((), s.create_dir p) := rfl

theorem M.run_mCreateSymlink (target link : FsPath) (s : FS) :
    M.run (mCreateSymlink target link) s = .ok ((), s.create_symlink target link) := rfl

theorem M.run_mRemove (p : FsPath) (s : FS) :
    M.run (mRemove p) s =
      match s.removeFs p with
      | .ok s1 => .ok ((), s1)
      | .error m => .error (.fileSystem m, s) := rfl

theorem M.run_mRename (src dst : FsPath) (s : FS) :
    M.run (mRename src dst) s =
      match s.renameFs src dst with
      | .ok s1 => .ok ((), s1)
      | .error m => .error (.fileSystem m, s) := rfl

theorem M.run_mScanWorktrees (root : FsPath) (info : RepoInfo) (s : FS) :
    M.run (mScanWorktrees root info) s =
      match scan_worktrees s root info with
      | .ok l => .ok (l, s)
      | .error e => .error (e, s) := rfl

/-- The unshare loop body as written in the source. -/
def unshareBody (rel : List Str) (removedCount : Nat) (worktree : FsPath) : M Nat := do
  let target := worktree.join (.ofComps rel)
  let fs ← mGet
  if !fs.pathExists target && !fs.is_symlink target then
    pure removedCount
  else if fs.is_symlink target then do
    mRemove target
    pure (removedCount + 1)
  else pure removedCount

/-- A for-loop over a list in M, one iteration per element in order. -/
def mFor {α : Type} : List α → (α → M Unit) → M Unit
  | [], _ => pure ()
  | x :: xs, f => do
    f x
    mFor xs f

/-- The body of the worktree re-link loop in SharedResource::share: replace
whatever sits at worktree.join(relative_path) with a fresh symbolic link to
the shared copy.  Note the caller-supplied relative_path is joined, not the
stripped repo-relative path. -/
def shareBody (sharedPath relative_path : FsPath) (worktree : FsPath) : M Unit := do
  let targetInWorktree := worktree.join relative_path
  let fs3 ← mGet
  if fs3.pathExists targetInWorktree || fs3.is_symlink targetInWorktree then
    mRemove targetInWorktree
  else pure ()
  mCreateSymlink sharedPath targetInWorktree

/-- The shared-resource synchronization engine: the owning repository
identity and the managed root (core/shared_resource.rs). -/
structure SharedResource where
  repo_info : RepoInfo
  root : FsPath

namespace SharedResource

/-- SharedResource::conflicts: normalize the caller path, require it nested
under repo_root, return empty when nothing is shared yet, otherwise report
every worktree whose corresponding path is present (or is a symlink) and is
not the caller's own file. -/
def conflicts (sr : SharedResource) (repo_root relative_path : FsPath) :
    M (List FsPath) := do
  let currentDir ← mCurrentDir
  let file ← mNormalize relative_path currentDir
  match file.stripPre repo_root with
  | none => mThrow (.notFound ("prefix not found".data))
  | some repoRel => do
    let sharedPath := sr.repo_info.build_shared_path sr.root (.ofComps repoRel)
    let fs ← mGet
    if !fs.pathExists sharedPath then
      pure []
    else do
      let worktrees ← mScanWorktrees sr.root sr.repo_info
      let fs2 ← mGet
      pure (worktrees.foldl (fun acc worktree =>
        let target := worktree.join (.ofComps repoRel)
        if file = target then acc
        else if fs2.pathExists target || fs2.is_symlink target then acc ++ [target]
        else acc) [])

/-- The while-let queue loop of SharedResource::mount, popping the most
recently pushed directory first as Vec::pop does.  The fuel argument only
bounds the model's recursion depth. -/
def mountLoop (repo_root sharedRoot : FsPath) : Nat → List FsPath → M Unit
  | 0, _ => mThrow (.ioErr ("mount recursion bound exceeded".data))
  | _ + 1, [] => pure ()
  | n + 1, currentDir :: queueRest => do
    let entries ← mReadDir currentDir
    let pushed ← entries.foldlM (fun acc entry => do
      let fs ← mGet
      if fs.is_dir entry then do
        mCreateDir (repo_root.join entry)
        pure (entry :: acc)
      else
        match entry.stripPre sharedRoot with
        | none => mThrow (.ioErr ("InvalidData".data))
        | some rel => do
          let targetPath := repo_root.join (.ofComps rel)
          let fs2 ← mGet
          if fs2.pathExists targetPath || fs2.is_symlink targetPath then
            mRemove targetPath
          else pure ()
          mCreateSymlink entry targetPath
          pure acc) []
    mountLoop repo_root sharedRoot n (pushed ++ queueRest)

/-- Queue-loop fuel that suffices for the states the claims evaluate. -/
def mountFuel (fs : FS) : Nat :=
  fs.entries.length + 2

/-- SharedResource::mount: an error when the shared-storage root for the
repository does not exist, otherwise walk the shared subtree. -/
def mount (sr : SharedResource) (repo_root : FsPath) : M Unit := do
  let sharedRoot := sr.repo_info.build_shared_path sr.root ⟨false, []⟩
  let fs ← mGet
  if !fs.pathExists sharedRoot then
    mThrow (.notFound ("Shared storage not found at ".data ++ sharedRoot.render))
  else
    mountLoop repo_root sharedRoot (mountFuel fs) [sharedRoot]

/-- SharedResource::share: normalize and check nesting, fail when the
source is missing, no-op when it is already a symlink, otherwise move it
into shared storage (overwriting) and re-link every worktree at the
caller-supplied relative path. -/
def share (sr : SharedResource) (repo_root relative_path : FsPath) : M Unit := do
  let currentDir ← mCurrentDir
  let file ← mNormalize relative_path currentDir
  match file.stripPre repo_root with
  | none => mThrow (.notFound ("prefix not found".data))
  | some repoRel => do
    let sharedPath := sr.repo_info.build_shared_path sr.root (.ofComps repoRel)
    let fs ← mGet
    if !fs.pathExists file then
      mThrow (.notFound ("File/Directory not found: ".data ++ relative_path.render))
    else if fs.is_symlink file then
      pure ()
    else do
      match sharedPath.parent? with
      | some parentDir => mCreateDir parentDir
      | none => pure ()
      let fs2 ← mGet
      if fs2.pathExists sharedPath then mRemove sharedPath else pure ()
      mRename file sharedPath
      let worktrees ← mScanWorktrees sr.root sr.repo_info
      mFor worktrees (shareBody sharedPath relative_path)

/-- SharedResource::unshare: delete the symbolic link at the repo-relative
path in every worktree that has one and return the count removed. -/
def unshare (sr : SharedResource) (repo_root relative_path : FsPath) : M Nat := do
  let currentDir ← mCurrentDir
  let file ← mNormalize relative_path currentDir
  match file.stripPre repo_root with
  | none => mThrow (.notFound ("prefix not found".data))
  | some repoRel => do
    let worktrees ← mScanWorktrees sr.root sr.repo_info
    worktrees.foldlM (unshareBody repoRel) 0

end SharedResource

/-! Claim fixtures: a small managed root with one repository checked out as
two worktrees, matching the end-to-end scenario of the specification. -/

/-- The managed root /grm. -/
def exRoot : FsPath := ⟨true, [ "grm".data ]⟩

/-- The repository identity github.com/acme/widgets. -/
def exInfo : RepoInfo := ⟨"github.com".data, "acme".data, "widgets".data, none⟩

/-- The engine instance bound to the fixture root and repository. -/
def exSr : SharedResource := ⟨exInfo, exRoot⟩

/-- Worktree /grm/github.com/acme/widgets+main. -/
def exMain : FsPath :=
  ⟨true, [ "grm".data, "github.com".data, "acme".data, "widgets+main".data ]⟩

/-- Worktree /grm/github.com/acme/widgets+feature. -/
def exFeat : FsPath :=
  ⟨true, [ "grm".data, "github.com".data, "acme".data, "widgets+feature".data ]⟩

/-- Base fixture state: both worktrees present, a secrets.env file in the
main worktree, current directory the main worktree. -/
def exFs : FS :=
  { entries :=
      [ (exRoot, .dir)
      , (⟨true, [ "grm".data, "github.com".data ]⟩, .dir)
      , (⟨true, [ "grm".data, "github.com".data, "acme".data ]⟩, .dir)
      , (exMain, .dir)
      , (exMain.join ⟨false, [ ".git".data ]⟩, .dir)
      , (exFeat, .dir)
      , (exFeat.join ⟨false, [ ".git".data ]⟩, .dir)
      , (exMain.join ⟨false, [ "secrets.env".data ]⟩, .file)
      ]
    cwd := exMain
    home := ⟨true, [ "home".data, "testuser".data ]⟩ }

/-- Worktree /grm/github.com/acme/widgets+new used by the mount claims. -/
def exNew : FsPath :=
  ⟨true, [ "grm".data, "github.com".data, "acme".data, "widgets+new".data ]⟩

/-- Shared-storage state holding the nested file
.shared/github.com/acme/widgets/sub/config.json, with a fresh worktree
widgets+new to be mounted. -/
def exFsNested : FS :=
  { entries :=
      [ (exRoot, .dir)
      , (⟨true, [ "grm".data, ".shared".data ]⟩, .dir)
      , (⟨true, [ "grm".data, ".shared".data, "github.com".data ]⟩, .dir)
      , (⟨true, [ "grm".data, ".shared".data, "github.com".data, "acme".data ]⟩, .dir)
      , (⟨true, [ "grm".data, ".shared".data, "github.com".data, "acme".data,
          "widgets".data ]⟩, .dir)
      , (⟨true, [ "grm".data, ".shared".data, "github.com".data, "acme".data,
          "widgets".data, "sub".data ]⟩, .dir)
      , (⟨true, [ "grm".data, ".shared".data, "github.com".data, "acme".data,
          "widgets".data, "sub".data, "config.json".data ]⟩, .file)
      , (⟨true, [ "grm".data, "github.com".data ]⟩, .dir)
      , (⟨true, [ "grm".data, "github.com".data, "acme".data ]⟩, .dir)
      , (exNew, .dir)
      , (exNew.join ⟨false, [ ".git".data ]⟩, .dir)
      ]
    cwd := exNew
    home := ⟨true, [ "home".data, "testuser".data ]⟩ }

/-- The shared-storage location of the fixture file secrets.env. -/
def exSharedEnv : FsPath :=
  ⟨true, [ "grm".data, ".shared".data, "github.com".data, "acme".data,
    "widgets".data, "secrets.env".data ]⟩

/-- State in which secrets.env is already shared: the shared copy exists
and both worktrees hold a symbolic link to it. -/
def exFsLinked : FS :=
  { entries :=
      [ (exRoot, .dir)
      , (⟨true, [ "grm".data, "github.com".data ]⟩, .dir)
      , (⟨true, [ "grm".data, "github.com".data, "acme".data ]⟩, .dir)
      , (exMain, .dir)
      , (exMain.join ⟨false, [ ".git".data ]⟩, .dir)
      , (exFeat, .dir)
      , (exFeat.join ⟨false, [ ".git".data ]⟩, .dir)
      , (⟨true, [ "grm".data, ".shared".data ]⟩, .dir)
      , (⟨true, [ "grm".data, ".shared".data, "github.com".data ]⟩, .dir)
      , (⟨true, [ "grm".data, ".shared".data, "github.com".data, "acme".data ]⟩, .dir)
      , (⟨true, [ "grm".data, ".shared".data, "github.com".data, "acme".data,
          "widgets".data ]⟩, .dir)
      , (exSharedEnv, .file)
      , (exMain.join ⟨false, [ "secrets.env".data ]⟩, .symlink exSharedEnv)
      , (exFeat.join ⟨false, [ "secrets.env".data ]⟩, .symlink exSharedEnv)
      ]
    cwd := exMain
    home := ⟨true, [ "home".data, "testuser".data ]⟩ }

/-- State in which the source is a dangling symbolic link: the link at
widgets+main/secrets.env points at a path that holds no entry. -/
def exFsDangling : FS :=
  { entries :=
      [ (exRoot, .dir)
      , (⟨true, [ "grm".data, "github.com".data ]⟩, .dir)
      , (⟨true, [ "grm".data, "github.com".data, "acme".data ]⟩, .dir)
      , (exMain, .dir)
      , (exMain.join ⟨false, [ ".git".data ]⟩, .dir)
      , (exMain.join ⟨false, [ "secrets.env".data ]⟩, .symlink
          ⟨true, [ "nowhere".data ]⟩)
      ]
    cwd := exMain
    home := ⟨true, [ "home".data, "testuser".data ]⟩ }

/-- The shared-storage location of the fixture file sub/config.json. -/
def exSharedSubCfg : FsPath :=
  ⟨true, [ "grm".data, ".shared".data, "github.com".data, "acme".data,
    "widgets".data, "sub".data, "config.json".data ]⟩

/-- State whose current directory is the sub directory inside the main
worktree, with the file to share at widgets+main/sub/config.json. -/
def exFsSub : FS :=
  { entries :=
      [ (exRoot, .dir)
      , (⟨true, [ "grm".data, "github.com".data ]⟩, .dir)
      , (⟨true, [ "grm".data, "github.com".data, "acme".data ]⟩, .dir)
      , (exMain, .dir)
      , (exMain.join ⟨false, [ ".git".data ]⟩, .dir)
      , (exFeat, .dir)
      , (exFeat.join ⟨false, [ ".git".data ]⟩, .dir)
      , (exMain.join ⟨false, [ "sub".data ]⟩, .dir)
      , (exMain.join ⟨false, [ "sub".data, "config.json".data ]⟩, .file)
      ]
    cwd := exMain.join ⟨false, [ "sub".data ]⟩
    home := ⟨true, [ "home".data, "testuser".data ]⟩ }

/-- The intermediate state of share on the base fixture: the shared parent
chain created and secrets.env moved into shared storage. -/
def exFsMid : FS :=
  { entries :=
      [ (exRoot, .dir)
      , (⟨true, [ "grm".data, "github.com".data ]⟩, .dir)
      , (⟨true, [ "grm".data, "github.com".data, "acme".data ]⟩, .dir)
      , (exMain, .dir)
      , (exMain.join ⟨false, [ ".git".data ]⟩, .dir)
      , (exFeat, .dir)
      , (exFeat.join ⟨false, [ ".git".data ]⟩, .dir)
      , (exSharedEnv, .file)
      , (⟨true, [ "grm".data, ".shared".data ]⟩, .dir)
      , (⟨true, [ "grm".data, ".shared".data, "github.com".data ]⟩, .dir)
      , (⟨true, [ "grm".data, ".shared".data, "github.com".data, "acme".data ]⟩, .dir)
      , (⟨true, [ "grm".data, ".shared".data, "github.com".data, "acme".data,
          "widgets".data ]⟩, .dir)
      ]
    cwd := exMain
    home := ⟨true, [ "home".data, "testuser".data ]⟩ }

/-- The base fixture with the shared parent chain already present: the
state share reaches after removing a stale occupant of the shared
destination, just before the move. -/
def exFsPre : FS :=
  { entries :=
      [ (exRoot, .dir)
      , (⟨true, [ "grm".data, "github.com".data ]⟩, .dir)
      , (⟨true, [ "grm".data, "github.com".data, "acme".data ]⟩, .dir)
      , (exMain, .dir)
      , (exMain.join ⟨false, [ ".git".data ]⟩, .dir)
      , (exFeat, .dir)
      , (exFeat.join ⟨false, [ ".git".data ]⟩, .dir)
      , (exMain.join ⟨false, [ "secrets.env".data ]⟩, .file)
      , (⟨true, [ "grm".data, ".shared".data ]⟩, .dir)
      , (⟨true, [ "grm".data, ".shared".data, "github.com".data ]⟩, .dir)
      , (⟨true, [ "grm".data, ".shared".data, "github.com".data, "acme".data ]⟩, .dir)
      , (⟨true, [ "grm".data, ".shared".data, "github.com".data, "acme".data,
          "widgets".data ]⟩, .dir)
      ]
    cwd := exMain
    home := ⟨true, [ "home".data, "testuser".data ]⟩ }

/-- State in which a stale file already occupies the shared destination of
secrets.env while the source in the main worktree is a plain file: the
overwrite ("last share wins") branch of share. -/
def exFsStale : FS :=
  { entries := exFsPre.entries ++ [ (exSharedEnv, .file) ]
    cwd := exMain
    home := ⟨true, [ "home".data, "testuser".data ]⟩ }

/-! Supporting lemmas about the string helpers. -/

theorem splitSep_ne_nil (sep : Char) (l : Str) : splitSep sep l ≠ [] := by
  cases l with
  | nil => simp [splitSep]
  | cons c rest =>
    simp only [splitSep]
    cases h : splitSep sep rest with
    | nil => simp
    | cons a t => by_cases hc : c = sep <;> simp [hc]

theorem splitSep_cons_of_sep (sep : Char) (rest : Str) :
    splitSep sep (sep :: rest) = [] :: splitSep sep rest := by
  simp only [splitSep]
  cases h : splitSep sep rest with
  | nil => exact absurd h (splitSep_ne_nil sep rest)
  | cons a t => simp

theorem splitSep_cons_of_ne (sep c : Char) (rest : Str) (hc : c ≠ sep) :
    splitSep sep (c :: rest) =
      (c :: (splitSep sep rest).headI) :: (splitSep sep rest).tail := by
  simp only [splitSep]
  cases h : splitSep sep rest with
  | nil => exact absurd h (splitSep_ne_nil sep rest)
  | cons a t => simp [hc, List.headI]

theorem splitSep_append_no_sep (sep : Char) (xs ys : Str) (hx : sep ∉ xs) :
    splitSep sep (xs ++ ys) =
      (xs ++ (splitSep sep ys).headI) :: (splitSep sep ys).tail := by
  induction xs with
  | nil =>
    simp only [List.nil_append]
    cases h : splitSep sep ys with
    | nil => exact absurd h (splitSep_ne_nil sep ys)
    | cons a t => simp [List.headI]
  | cons c xs ih =>
    have hc : c ≠ sep := by
      intro hEq; exact hx (hEq ▸ List.mem_cons_self c xs)
    have hx2 : sep ∉ xs := fun hm => hx (List.mem_cons_of_mem c hm)
    rw [List.cons_append, splitSep_cons_of_ne sep c (xs ++ ys) hc, ih hx2]
    simp

theorem splitSep_no_sep (sep : Char) (l : Str) (h : sep ∉ l) :
    splitSep sep l = [l] := by
  have := splitSep_append_no_sep sep l [] h
  simpa [splitSep] using this

theorem mem_splitSep_not_sep (sep : Char) (l : Str) :
    ∀ c ∈ splitSep sep l, sep ∉ c := by
  induction l with
  | nil => simp [splitSep]
  | cons x rest ih =>
    by_cases hx : x = sep
    · subst hx
      rw [splitSep_cons_of_sep]
      intro c hc
      rcases List.mem_cons.mp hc with h1 | h2
      · subst h1; simp
      · exact ih c h2
    · rw [splitSep_cons_of_ne sep x rest hx]
      intro c hc
      rcases List.mem_cons.mp hc with h1 | h2
      · subst h1
        intro hmem
        rcases List.mem_cons.mp hmem with h3 | h4
        · exact hx h3.symm
        · cases hsp : splitSep sep rest with
          | nil => exact absurd hsp (splitSep_ne_nil sep rest)
          | cons a t =>
            apply ih a (by simp [hsp])
            simpa [hsp, List.headI] using h4
      · cases hsp : splitSep sep rest with
        | nil => exact absurd hsp (splitSep_ne_nil sep rest)
        | cons a t =>
          apply ih c
          simp only [hsp] at h2 ⊢
          exact List.mem_cons_of_mem a h2

theorem joinSep_splitSep (sep : Char) (l : Str) :
    joinSep sep (splitSep sep l) = l := by
  induction l with
  | nil => simp [splitSep, joinSep]
  | cons c rest ih =>
    by_cases hc : c = sep
    · rw [hc, splitSep_cons_of_sep]
      cases hsp : splitSep sep rest with
      | nil => exact absurd hsp (splitSep_ne_nil sep rest)
      | cons a t =>
        rw [hsp] at ih
        simp [joinSep, ih]
    · rw [splitSep_cons_of_ne sep c rest hc]
      cases hsp : splitSep sep rest with
      | nil => exact absurd hsp (splitSep_ne_nil sep rest)
      | cons a t =>
        rw [hsp] at ih
        cases t with
        | nil => simpa [joinSep, List.headI] using congrArg (fun z => c :: z) ih
        | cons b t2 => simpa [joinSep, List.headI] using congrArg (fun z => c :: z) ih

theorem breakAt_append (sep : Char) (xs ys : Str) (hx : sep ∉ xs) :
    breakAt sep (xs ++ sep :: ys) = some (xs, ys) := by
  induction xs with
  | nil => simp [breakAt]
  | cons c xs ih =>
    have hc : c ≠ sep := by
      intro hEq; exact hx (hEq ▸ List.mem_cons_self c xs)
    have hx2 : sep ∉ xs := fun hm => hx (List.mem_cons_of_mem c hm)
    simp [breakAt, hc, ih hx2]

theorem breakAt_eq_some (sep : Char) (l a b : Str)
    (h : breakAt sep l = some (a, b)) : l = a ++ sep :: b ∧ sep ∉ a := by
  induction l generalizing a with
  | nil => simp [breakAt] at h
  | cons c rest ih =>
    by_cases hc : c = sep
    · subst hc
      simp [breakAt] at h
      obtain ⟨h1, h2⟩ := h
      subst h1; subst h2
      simp
    · simp only [breakAt, if_neg hc] at h
      cases hb : breakAt sep rest with
      | none => rw [hb] at h; simp at h
      | some p =>
        rw [hb] at h
        obtain ⟨a2, b2⟩ := p
        simp at h
        obtain ⟨h1, h2⟩ := h
        subst h2
        obtain ⟨hl, hm⟩ := ih a2 hb
        constructor
        · rw [← h1, hl]; simp
        · rw [← h1]
          intro hmem
          rcases List.mem_cons.mp hmem with h3 | h4
          · exact hc h3.symm
          · exact hm h4

theorem breakAt_none (sep : Char) (l : Str) (h : breakAt sep l = none) : sep ∉ l := by
  induction l with
  | nil => simp
  | cons c rest ih =>
    by_cases hc : c = sep
    · subst hc; simp [breakAt] at h
    · simp only [breakAt, if_neg hc] at h
      cases hb : breakAt sep rest with
      | none =>
        intro hmem
        rcases List.mem_cons.mp hmem with h3 | h4
        · exact hc h3.symm
        · exact ih hb h4
      | some p => rw [hb] at h; simp at h

theorem dropRep_mem (pat : Str) (fuel : Nat) (l : Str) :
    ∀ x ∈ dropRep pat fuel l, x ∈ l := by
  induction fuel generalizing l with
  | zero => simp [dropRep]
  | succ n ih =>
    intro x hx
    simp only [dropRep] at hx
    by_cases h : pat ≠ [] ∧ pat.isPrefixOf l
    · rw [if_pos h] at hx
      exact List.mem_of_mem_drop (ih (l.drop pat.length) x hx)
    · rwa [if_neg h] at hx

theorem trimEndMatches_mem (pat l : Str) :
    ∀ x ∈ trimEndMatches pat l, x ∈ l := by
  intro x hx
  unfold trimEndMatches at hx
  have h1 := List.mem_reverse.mpr hx
  rw [List.reverse_reverse] at h1
  have h2 := dropRep_mem pat.reverse (l.length + 1) l.reverse x h1
  exact List.mem_reverse.mp h2

/-! Supporting lemmas about path components. -/

/-- A string usable as one path component: nonempty, not the "." marker,
and free of the separator. -/
def cleanComp (s : Str) : Prop :=
  s ≠ [] ∧ s ≠ ['.'] ∧ '/' ∉ s

instance (s : Str) : Decidable (cleanComp s) := by
  unfold cleanComp; infer_instance

theorem cleanParts_single (s : Str) (h : cleanComp s) : cleanParts s = [s] := by
  obtain ⟨h1, h2, h3⟩ := h
  unfold cleanParts
  rw [splitSep_no_sep '/' s h3]
  simp [h1, h2]

theorem head_ne_slash_of_cleanComp (s : Str) (h : cleanComp s) :
    s.head? ≠ some '/' := by
  obtain ⟨h1, _, h3⟩ := h
  cases s with
  | nil => simp
  | cons c rest =>
    simp only [List.head?]
    intro hc
    apply h3
    rw [Option.some.inj hc]
    exact List.mem_cons_self _ _

theorem joinStr_clean (p : FsPath) (s : Str) (h : cleanComp s) :
    p.joinStr s = ⟨p.isAbs, p.comps ++ [s]⟩ := by
  unfold FsPath.joinStr
  rw [if_neg (head_ne_slash_of_cleanComp s h), cleanParts_single s h]
  cases hab : p.isAbs <;> simp [hab]

theorem cleanParts_plus (repo b : Str) (hrne : repo ≠ []) (hrsl : '/' ∉ repo)
    (hb : ∀ c ∈ splitSep '/' b, c ≠ [] ∧ c ≠ ['.']) :
    cleanParts (repo ++ '+' :: b) =
      (repo ++ '+' :: (splitSep '/' b).headI) :: (splitSep '/' b).tail := by
  have hxs : '/' ∉ repo ++ ['+'] := by
    intro hm
    rcases List.mem_append.mp hm with h1 | h2
    · exact hrsl h1
    · simp at h2
  have heq : repo ++ '+' :: b = (repo ++ ['+']) ++ b := by simp
  unfold cleanParts
  rw [heq, splitSep_append_no_sep '/' (repo ++ ['+']) b hxs]
  cases hsp : splitSep '/' b with
  | nil => exact absurd hsp (splitSep_ne_nil '/' b)
  | cons h t =>
    simp only [List.headI, List.tail]
    have e1 : (repo ++ ['+']) ++ h = repo ++ '+' :: h := by simp
    rw [e1]
    have hne1 : repo ++ '+' :: h ≠ [] := by simp
    have hne2 : repo ++ '+' :: h ≠ ['.'] := by
      cases hre : repo with
      | nil => exact absurd hre hrne
      | cons r rs =>
        intro hEq
        simp only [List.cons_append] at hEq
        have h2 := (List.cons.inj hEq).2
        exact absurd h2 (by simp)
    have ht2 : ∀ a ∈ t, ¬a = [] ∧ ¬a = ['.'] := by
      intro a ha
      have := hb a (by simp [hsp, ha])
      exact ⟨this.1, this.2⟩
    rw [List.filter_cons]
    simp [hne1, hne2]
    exact ht2

theorem build_repo_path_comps (root : FsPath) (info : RepoInfo) (b : Str)
    (hh : cleanComp info.host) (hu : cleanComp info.user)
    (hrne : info.repo ≠ []) (hrsl : '/' ∉ info.repo)
    (hb : ∀ c ∈ splitSep '/' b, c ≠ [] ∧ c ≠ ['.']) :
    info.build_repo_path root b =
      ⟨root.isAbs, root.comps ++
        [info.host, info.user, info.repo ++ '+' :: (splitSep '/' b).headI] ++
        (splitSep '/' b).tail⟩ := by
  unfold RepoInfo.build_repo_path
  rw [joinStr_clean root info.host hh, joinStr_clean _ info.user hu]
  unfold FsPath.joinStr
  have hhead : (info.repo ++ '+' :: b).head? ≠ some '/' := by
    cases hr : info.repo with
    | nil => exact absurd hr hrne
    | cons c rest =>
      simp only [List.cons_append, List.head?]
      intro hc
      apply hrsl
      rw [hr, Option.some.inj hc]
      exact List.mem_cons_self _ _
  rw [if_neg hhead, cleanParts_plus info.repo b hrne hrsl hb]
  cases hab : root.isAbs <;> simp [hab]

theorem joinSep_cons_cons (sep : Char) (x y : Str) (rest : List Str) :
    joinSep sep (x :: y :: rest) = x ++ sep :: joinSep sep (y :: rest) := rfl

theorem stripPre_append (base : FsPath) (rest : List Str) :
    FsPath.stripPre ⟨base.isAbs, base.comps ++ rest⟩ base = some rest := by
  unfold FsPath.stripPre FsPath.toComps
  have hpre : ((if base.isAbs then [['/']] else []) ++ base.comps).isPrefixOf
      ((if (⟨base.isAbs, base.comps ++ rest⟩ : FsPath).isAbs then [['/']] else []) ++
        (base.comps ++ rest)) = true := by
    apply List.isPrefixOf_iff_prefix.mpr
    simp only
    rw [← List.append_assoc]
    exact List.prefix_append _ rest
  simp only at hpre ⊢
  rw [if_pos hpre]
  congr 1
  rw [← List.append_assoc, List.drop_left]



/-! Claim C2: the from_path / build_repo_path round trip. -/

/-- C2 counterexample: for the empty branch string the round trip does not
return the branch — build_repo_path yields root/host/user/repo+ and
from_path decodes the empty text after the plus sign as no branch at all
(branch = none), not as the empty branch. -/
theorem C2_counterexample :
    RepoInfo.from_path exRoot (exInfo.build_repo_path exRoot []) =
        .ok ⟨"github.com".data, "acme".data, "widgets".data, none⟩ ∧
      (Except.ok (⟨"github.com".data, "acme".data, "widgets".data, none⟩ : RepoInfo) :
          Except RepoErr RepoInfo) ≠
        .ok ⟨"github.com".data, "acme".data, "widgets".data, some []⟩ := by
  constructor
  · decide
  · decide

/-- C2 (amended): for every RepoInfo whose host, user and repo are clean
single path components (non-empty, not ".", free of slashes) with no plus
sign in repo, and every branch whose slash-separated pieces are all
non-empty and none equal to ".", from_path (build_repo_path root info b)
succeeds and returns exactly host, user, repo and the branch b, pieces of a
slash-containing branch being rejoined with a slash. -/
theorem C2_theorem (root : FsPath) (info : RepoInfo) (b : Str)
    (hh : cleanComp info.host) (hu : cleanComp info.user)
    (hr : cleanComp info.repo) (hplus : '+' ∉ info.repo)
    (hb : ∀ c ∈ splitSep '/' b, c ≠ [] ∧ c ≠ ['.']) :
    RepoInfo.from_path root (info.build_repo_path root b) =
      .ok ⟨info.host, info.user, info.repo, some b⟩ := by
  rw [build_repo_path_comps root info b hh hu hr.1 hr.2.2 hb]
  unfold RepoInfo.from_path
  have hstrip := stripPre_append root
    ([info.host, info.user, info.repo ++ '+' :: (splitSep '/' b).headI] ++
      (splitSep '/' b).tail)
  rw [← List.append_assoc] at hstrip
  rw [hstrip]
  have hjoin := joinSep_splitSep '/' b
  cases hsp : splitSep '/' b with
  | nil => exact absurd hsp (splitSep_ne_nil '/' b)
  | cons h t =>
    rw [hsp] at hjoin
    simp only [hsp, List.headI, List.tail, List.cons_append, List.nil_append]
    rw [breakAt_append '+' info.repo h hplus]
    cases t with
    | nil =>
      have hh1 : h ≠ [] := (hb h (by simp [hsp])).1
      simp only [joinSep] at hjoin
      simp [hh1, hjoin]
      exact hjoin ▸ hh1
    | cons b2 t2 =>
      simp [hjoin]

/-- C2 witness: the amended round trip evaluated on the fixture repository
with the slash-containing branch feature/foo. -/
theorem C2_witness :
    RepoInfo.from_path exRoot (exInfo.build_repo_path exRoot ("feature/foo".data)) =
      .ok ⟨"github.com".data, "acme".data, "widgets".data, some ("feature/foo".data)⟩ :=
  C2_theorem exRoot exInfo ("feature/foo".data)
    (by decide) (by decide) (by decide) (by decide) (by decide)

/-! Claim C7: invariants of RepoInfo produced by from_url and from_path. -/

theorem tryFormat_ok (pre : Str) (sep : Char) (url : Str) (r : Except RepoErr RepoInfo)
    (info : RepoInfo) (h : RepoInfo.tryFormat pre sep url = some r)
    (hr : r = .ok info) : '/' ∉ info.user ∧ '/' ∉ info.repo := by
  obtain ⟨ihost, iuser, irepo, ibranch⟩ := info
  unfold RepoInfo.tryFormat at h
  by_cases hp : pre.isPrefixOf url
  · rw [if_pos hp] at h
    have hinner := Option.some.inj h
    subst hr
    cases hbk : breakAt sep (url.drop pre.length) with
    | none => rw [hbk] at hinner; simp at hinner
    | some hp2 =>
      obtain ⟨host0, path0⟩ := hp2
      rw [hbk] at hinner
      simp only at hinner
      cases hsp : splitSep '/' path0 with
      | nil => rw [hsp] at hinner; simp at hinner
      | cons u rest =>
        cases rest with
        | nil => rw [hsp] at hinner; simp at hinner
        | cons rr rest2 =>
          rw [hsp] at hinner
          simp only at hinner
          have hu := RepoInfo.mk.inj (Except.ok.inj hinner)
          obtain ⟨_, hu2, hu3, _⟩ := hu
          constructor
          · rw [← hu2]
            exact mem_splitSep_not_sep '/' path0 u (by simp [hsp])
          · rw [← hu3]
            intro hmem
            have h1 := trimEndMatches_mem (".git".data) rr '/' hmem
            exact mem_splitSep_not_sep '/' path0 rr (by simp [hsp]) h1
  · rw [if_neg hp] at h
    simp at h

theorem mem_stripPre (p base : FsPath) (cs : List Str)
    (h : p.stripPre base = some cs) (hab : base.isAbs = p.isAbs) :
    ∀ x ∈ cs, x ∈ p.comps := by
  unfold FsPath.stripPre at h
  by_cases hpre : (FsPath.toComps base).isPrefixOf p.toComps
  · rw [if_pos hpre] at h
    have hcs := Option.some.inj h
    intro x hx
    rw [← hcs] at hx
    cases habp : p.isAbs with
    | false =>
      have : p.toComps = p.comps := by unfold FsPath.toComps; rw [habp]; simp
      rw [this] at hx
      exact List.mem_of_mem_drop hx
    | true =>
      have hbt : base.isAbs = true := by rw [hab, habp]
      have h1 : p.toComps = ['/'] :: p.comps := by
        unfold FsPath.toComps; rw [habp]; simp
      have h2 : (FsPath.toComps base).length = base.comps.length + 1 := by
        unfold FsPath.toComps; rw [hbt]; simp
      rw [h1, h2] at hx
      simp only [List.drop_succ_cons] at hx
      exact List.mem_of_mem_drop hx
  · rw [if_neg hpre] at h
    simp at h

/-- C7 counterexample: the git@ URL shape splits host from the tail at the
first colon, so from_url accepts a URL whose host part contains a path
separator — here host is decoded as a/b. -/
theorem C7_counterexample :
    RepoInfo.from_url ("git@a/b:u/r".data) =
        .ok ⟨"a/b".data, "u".data, "r".data, none⟩ ∧
      '/' ∈ ("a/b".data : Str) := by
  constructor
  · decide
  · decide

/-- C7 (amended): every RepoInfo produced by from_url has user and repo
free of path separators (host can contain one through the git@ shape, and
the fields can be empty); every RepoInfo produced by from_path from a path
with well-formed components (non-empty, separator-free) sharing the root's
absoluteness has non-empty separator-free host and user and a
separator-free (possibly empty) repo. -/
theorem C7_theorem :
    (∀ url info, RepoInfo.from_url url = .ok info →
      '/' ∉ info.user ∧ '/' ∉ info.repo) ∧
    (∀ root p info, RepoInfo.from_path root p = .ok info →
      root.isAbs = p.isAbs → (∀ c ∈ p.comps, c ≠ [] ∧ '/' ∉ c) →
      info.host ≠ [] ∧ '/' ∉ info.host ∧ info.user ≠ [] ∧ '/' ∉ info.user ∧
        '/' ∉ info.repo) := by
  constructor
  · intro url info h
    unfold RepoInfo.from_url at h
    simp only at h
    cases h1 : RepoInfo.tryFormat ("https://".data) '/' (trimStr url) with
    | some r => rw [h1] at h; exact tryFormat_ok _ _ _ r info h1 h
    | none =>
      rw [h1] at h
      cases h2 : RepoInfo.tryFormat ("ssh://git@".data) '/' (trimStr url) with
      | some r => rw [h2] at h; exact tryFormat_ok _ _ _ r info h2 h
      | none =>
        rw [h2] at h
        cases h3 : RepoInfo.tryFormat ("git@".data) ':' (trimStr url) with
        | some r => rw [h3] at h; exact tryFormat_ok _ _ _ r info h3 h
        | none => rw [h3] at h; simp at h
  · intro root p info h hab hwf
    obtain ⟨ihost, iuser, irepo, ibranch⟩ := info
    unfold RepoInfo.from_path at h
    cases hs : p.stripPre root with
    | none => rw [hs] at h; simp at h
    | some cs =>
      rw [hs] at h
      have hmem := mem_stripPre p root cs hs hab
      cases cs with
      | nil => simp at h
      | cons host0 cs2 =>
        cases cs2 with
        | nil => simp at h
        | cons user0 cs3 =>
          cases cs3 with
          | nil => simp at h
          | cons rwb rest =>
            have hhost := hwf host0 (hmem host0 (by simp))
            have huser := hwf user0 (hmem user0 (by simp))
            have hrwb := hwf rwb (hmem rwb (by simp))
            simp only at h
            cases hbk : breakAt '+' rwb with
            | some pr =>
              obtain ⟨repo0, bf⟩ := pr
              rw [hbk] at h
              simp only at h
              have hfields := RepoInfo.mk.inj (Except.ok.inj h)
              obtain ⟨f1, f2, f3, _⟩ := hfields
              refine ⟨?_, ?_, ?_, ?_, ?_⟩
              · rw [← f1]; exact hhost.1
              · rw [← f1]; exact hhost.2
              · rw [← f2]; exact huser.1
              · rw [← f2]; exact huser.2
              · rw [← f3]
                intro hmem2
                apply hrwb.2
                have := (breakAt_eq_some '+' rwb repo0 bf hbk).1
                rw [this]
                exact List.mem_append.mpr (Or.inl hmem2)
            | none =>
              rw [hbk] at h
              simp only at h
              have hfields := RepoInfo.mk.inj (Except.ok.inj h)
              obtain ⟨f1, f2, f3, _⟩ := hfields
              exact ⟨f1 ▸ hhost.1, f1 ▸ hhost.2, f2 ▸ huser.1, f2 ▸ huser.2,
                f3 ▸ hrwb.2⟩

/-! Claim C10: mount on a repository with no shared storage. -/

/-- C10: whenever the shared-storage root {root}/.shared/{host}/{user}/{repo}
does not exist, mount returns a not-found error and the filesystem state at
the moment of failure is exactly the initial state — nothing was mutated. -/
theorem C10_theorem (sr : SharedResource) (fs : FS) (rr : FsPath)
    (h : fs.pathExists (sr.repo_info.build_shared_path sr.root ⟨false, []⟩) = false) :
    (sr.mount rr).run fs =
      .error (.notFound ("Shared storage not found at ".data ++
        (sr.repo_info.build_shared_path sr.root ⟨false, []⟩).render), fs) := by
  unfold SharedResource.mount
  rw [M.run_bind]
  have h1 : M.run mGet fs = .ok (fs, fs) := rfl
  rw [h1]
  simp only [h, Bool.not_false, if_pos]
  rfl

/-- C10 witness: mounting the fixture worktree before anything was ever
shared fails with not-found and leaves the state unchanged. -/
theorem C10_witness :
    (exSr.mount exMain).run exFs =
      .error (.notFound ("Shared storage not found at ".data ++
        (exSr.repo_info.build_shared_path exSr.root ⟨false, []⟩).render), exFs) :=
  C10_theorem exSr exFs exMain (by decide)

/-! Claim C3: mount of a shared subtree containing a nested file. -/



/-- C3: evaluation at the failing input.  Mounting a shared subtree that
contains the nested file sub/config.json terminates successfully, creates
the symbolic link at repo_root/sub/config.json — but never creates the
mirroring directory repo_root/sub, because the loop calls create_dir on
repo_root.join(entry) with an absolute entry path, which Rust join resolves
to the shared directory itself.  The claim (and the spec) requires the
mirroring directory structure under repo_root to be created before the
link. -/
theorem C3_theorem :
    (okState ((exSr.mount exNew).run exFsNested)).map
      (fun s =>
        (s.lookup (exNew.join ⟨false, [ "sub".data ]⟩),
         s.lookup (exNew.join ⟨false, [ "sub".data, "config.json".data ]⟩))) =
      some (none,
        some (.symlink ⟨true, [ "grm".data, ".shared".data, "github.com".data,
          "acme".data, "widgets".data, "sub".data, "config.json".data ]⟩)) := by
  decide

/-! Claim C6: idempotence of share on an already-linked source. -/





/-- C6 counterexample: when the already-present symbolic link dangles, the
normalized source is a symlink yet share does not return Ok — the
exists() precondition follows links, so the call fails with not-found
instead of being a no-op.  The claim said Ok regardless of where the link
points. -/
theorem C6_counterexample :
    exFsDangling.normalize ⟨false, [ "secrets.env".data ]⟩ exFsDangling.cwd =
        .ok (exMain.join ⟨false, [ "secrets.env".data ]⟩) ∧
      exFsDangling.is_symlink (exMain.join ⟨false, [ "secrets.env".data ]⟩) = true ∧
      okVal ((exSr.share exMain ⟨false, [ "secrets.env".data ]⟩).run exFsDangling) =
        none := by
  refine ⟨by decide, by decide, by decide⟩

/-- C6 (amended): whenever the normalized source path is a symbolic link
whose resolution exists, share returns Ok and performs no filesystem
mutation — so a second share of an already-shared file (link pointing at
the present shared copy) is a no-op and the state equals the state after
one share.  A dangling link source instead fails the exists check. -/
theorem C6_theorem (sr : SharedResource) (fs : FS) (rr rp file : FsPath)
    (rel : List Str)
    (hn : fs.normalize rp fs.cwd = .ok file)
    (hs : file.stripPre rr = some rel)
    (he : fs.pathExists file = true)
    (hl : fs.is_symlink file = true) :
    (sr.share rr rp).run fs = .ok ((), fs) := by
  unfold SharedResource.share
  simp only [M.run_bind, M.run_mCurrentDir, M.run_mNormalize, M.run_mGet, M.run_pure,
    hn, hs, he, hl, Bool.not_true, Bool.false_eq_true, if_false, if_true]

/-- C6 witness: re-sharing the already-shared fixture file is a no-op. -/
theorem C6_witness :
    (exSr.share exMain ⟨false, [ "secrets.env".data ]⟩).run exFsLinked =
      .ok ((), exFsLinked) :=
  C6_theorem exSr exFsLinked exMain ⟨false, [ "secrets.env".data ]⟩
    (exMain.join ⟨false, [ "secrets.env".data ]⟩) [ "secrets.env".data ]
    (by decide) (by decide) (by decide) (by decide)

/-! Claim C5: conflicts never reports the caller's own file. -/

theorem conflicts_foldl_not_mem (fs2 : FS) (file : FsPath) (rel : List Str)
    (ws : List FsPath) (acc : List FsPath) (hacc : file ∉ acc) :
    file ∉ ws.foldl (fun acc worktree =>
      let target := worktree.join (.ofComps rel)
      if file = target then acc
      else if fs2.pathExists target || fs2.is_symlink target then acc ++ [target]
      else acc) acc := by
  induction ws generalizing acc with
  | nil => exact hacc
  | cons w ws ih =>
    simp only [List.foldl_cons]
    apply ih
    by_cases h1 : file = w.join (.ofComps rel)
    · simpa [h1] using hacc
    · by_cases h2 : fs2.pathExists (w.join (.ofComps rel)) ||
          fs2.is_symlink (w.join (.ofComps rel))
      · simp only [if_neg h1, if_pos h2]
        intro hmem
        rcases List.mem_append.mp hmem with hma | hmb
        · exact hacc hma
        · exact h1 (List.mem_singleton.mp hmb)
      · simpa [h1, h2] using hacc

/-- C5: a successful conflicts call never returns the caller's own
normalized file path, and when nothing is shared yet at the corresponding
shared-storage path the result is the empty list. -/
theorem C5_theorem (sr : SharedResource) (fs : FS) (rr rp file : FsPath)
    (rel : List Str) (l : List FsPath) (s1 : FS)
    (hn : fs.normalize rp fs.cwd = .ok file)
    (hs : file.stripPre rr = some rel)
    (hrun : (sr.conflicts rr rp).run fs = .ok (l, s1)) :
    file ∉ l ∧
      (fs.pathExists (sr.repo_info.build_shared_path sr.root (.ofComps rel)) = false →
        l = []) := by
  unfold SharedResource.conflicts at hrun
  by_cases hsp : fs.pathExists (sr.repo_info.build_shared_path sr.root (.ofComps rel))
  · simp only [M.run_bind, M.run_mCurrentDir, M.run_mNormalize, M.run_mGet, M.run_pure,
      hn, hs, hsp, Bool.not_true, Bool.false_eq_true, if_false,
      M.run_mScanWorktrees] at hrun
    cases hsw : scan_worktrees fs sr.root sr.repo_info with
    | error e => rw [hsw] at hrun; simp at hrun
    | ok ws =>
      rw [hsw] at hrun
      simp only [M.run_bind, M.run_mGet, M.run_pure] at hrun
      have hl := (Prod.mk.inj (Except.ok.inj hrun)).1
      constructor
      · rw [← hl]
        exact conflicts_foldl_not_mem fs file rel ws [] (by simp)
      · intro hcontra
        rw [hsp] at hcontra
        cases hcontra
  · rw [Bool.not_eq_true] at hsp
    simp only [M.run_bind, M.run_mCurrentDir, M.run_mNormalize, M.run_mGet, M.run_pure,
      hn, hs, hsp, Bool.not_false, if_true] at hrun
    have hl := (Prod.mk.inj (Except.ok.inj hrun)).1
    constructor
    · rw [← hl]; simp
    · intro _; exact hl.symm

/-- C5 witness: conflicts evaluated in the fixture state where secrets.env
is shared — the caller's own path is absent from the result. -/
theorem C5_witness :
    exMain.join ⟨false, [ "secrets.env".data ]⟩ ∉
        [exFeat.join ⟨false, [ "secrets.env".data ]⟩] ∧
      (exFsLinked.pathExists (exSr.repo_info.build_shared_path exSr.root
          (.ofComps [ "secrets.env".data ])) = false →
        [exFeat.join ⟨false, [ "secrets.env".data ]⟩] = []) :=
  C5_theorem exSr exFsLinked exMain ⟨false, [ "secrets.env".data ]⟩
    (exMain.join ⟨false, [ "secrets.env".data ]⟩) [ "secrets.env".data ]
    [exFeat.join ⟨false, [ "secrets.env".data ]⟩] exFsLinked
    (by decide) (by decide) (by decide)

/-! Supporting lemmas about the filesystem state. -/

theorem run_foldlM_nil {σ α : Type} (f : σ → α → M σ) (n : σ) (s : FS) :
    M.run (List.foldlM f n ([] : List α)) s = .ok (n, s) := rfl

theorem run_foldlM_cons {σ α : Type} (f : σ → α → M σ) (n : σ) (x : α)
    (l : List α) (s : FS) :
    M.run (List.foldlM f n (x :: l)) s =
      match M.run (f n x) s with
      | .error es => .error es
      | .ok (n2, s2) => M.run (List.foldlM f n2 l) s2 := rfl

theorem run_mFor_nil {α : Type} (f : α → M Unit) (s : FS) :
    M.run (mFor ([] : List α) f) s = .ok ((), s) := rfl

theorem run_mFor_cons_error {α : Type} (f : α → M Unit) (x : α) (l : List α)
    (s : FS) (es : GrmError × FS) (h : M.run (f x) s = .error es) :
    M.run (mFor (x :: l) f) s = .error es := by
  show M.run (f x >>= fun _ => mFor l f) s = .error es
  rw [M.run_bind, h]

theorem run_mFor_cons_ok {α : Type} (f : α → M Unit) (x : α) (l : List α)
    (s : FS) (a : Unit) (s2 : FS) (h : M.run (f x) s = .ok (a, s2)) :
    M.run (mFor (x :: l) f) s = M.run (mFor l f) s2 := by
  show M.run (f x >>= fun _ => mFor l f) s = _
  rw [M.run_bind, h]

theorem lookup_some_of_pathExists (fs : FS) (p : FsPath)
    (h : fs.pathExists p = true) : ∃ e, fs.lookup p = some e := by
  unfold FS.pathExists at h
  cases hr : fs.resolve fs.resolveFuel p with
  | none => rw [hr] at h; simp at h
  | some e =>
    unfold FS.resolveFuel at hr
    unfold FS.resolve at hr
    cases hl : fs.lookup p with
    | none => rw [hl] at hr; simp at hr
    | some e2 => exact ⟨e2, rfl⟩

theorem lookup_symlink_of_is_symlink (fs : FS) (p : FsPath)
    (h : fs.is_symlink p = true) : ∃ t, fs.lookup p = some (.symlink t) := by
  unfold FS.is_symlink at h
  cases hl : fs.lookup p with
  | none => rw [hl] at h; simp at h
  | some e =>
    cases e with
    | file => rw [hl] at h; simp at h
    | dir => rw [hl] at h; simp at h
    | symlink t => exact ⟨t, rfl⟩

/-- Removing an entry that is a symbolic link drops exactly its own key. -/
theorem removeFs_symlink (fs : FS) (p t : FsPath)
    (h : fs.lookup p = some (.symlink t)) :
    fs.removeFs p = .ok (fs.removeKey p) := by
  unfold FS.removeFs FS.removeKey
  rw [h]

theorem find?_filter_ne_self (E : List (FsPath × FsEntry)) (p : FsPath) :
    (E.filter (fun e => e.1 ≠ p)).find? (fun e => e.1 = p) = none := by
  induction E with
  | nil => rfl
  | cons e es ih =>
    by_cases he : e.1 = p
    · simp only [List.filter_cons]
      rw [if_neg (by simp [he])]
      exact ih
    · simp only [List.filter_cons]
      rw [if_pos (by simp [he])]
      rw [List.find?_cons_of_neg _ (by simp [he])]
      exact ih

theorem find?_filter_ne_other (E : List (FsPath × FsEntry)) (p q : FsPath)
    (hq : q ≠ p) :
    (E.filter (fun e => e.1 ≠ p)).find? (fun e => e.1 = q) =
      E.find? (fun e => e.1 = q) := by
  induction E with
  | nil => rfl
  | cons e es ih =>
    by_cases he : e.1 = p
    · simp only [List.filter_cons]
      rw [if_neg (by simp [he])]
      rw [List.find?_cons_of_neg _ (by simp [he]; exact fun hpq => hq hpq.symm)]
      exact ih
    · simp only [List.filter_cons]
      rw [if_pos (by simp [he])]
      by_cases heq : e.1 = q
      · rw [List.find?_cons_of_pos _ (by simp [heq]), List.find?_cons_of_pos _ (by simp [heq])]
      · rw [List.find?_cons_of_neg _ (by simp [heq]), List.find?_cons_of_neg _ (by simp [heq])]
        exact ih

theorem lookup_filter_self (fs : FS) (p : FsPath) :
    (fs.removeKey p).lookup p = none := by
  unfold FS.removeKey FS.lookup
  simp only
  rw [find?_filter_ne_self]
  rfl

theorem lookup_filter_other (fs : FS) (p q : FsPath) (hq : q ≠ p) :
    (fs.removeKey p).lookup q = fs.lookup q := by
  unfold FS.removeKey FS.lookup
  simp only
  rw [find?_filter_ne_other fs.entries p q hq]

theorem is_symlink_congr (s1 s2 : FS) (p : FsPath)
    (h : s1.lookup p = s2.lookup p) : s1.is_symlink p = s2.is_symlink p := by
  unfold FS.is_symlink
  rw [h]

/-- Path join with a relative right argument is injective on the left. -/
theorem join_rel_inj (w1 w2 q : FsPath) (hq : q.isAbs = false)
    (h : w1.join q = w2.join q) : w1 = w2 := by
  unfold FsPath.join at h
  rw [hq] at h
  simp only [Bool.false_eq_true, if_false] at h
  have h1 := FsPath.mk.inj h
  cases w1
  cases w2
  simp only at h1
  simp [h1.1, List.append_cancel_right h1.2]

/-! Claim C4: the unshare count and its effect. -/

theorem run_unshareBody_symlink (rel : List Str) (n : Nat) (w : FsPath) (s : FS)
    (t : FsPath) (h : s.lookup (w.join (.ofComps rel)) = some (.symlink t)) :
    M.run (unshareBody rel n w) s =
      .ok (n + 1, s.removeKey (w.join (.ofComps rel))) := by
  have hsym : s.is_symlink (w.join (.ofComps rel)) = true := by
    unfold FS.is_symlink
    rw [h]
  unfold unshareBody
  simp only [M.run_bind, M.run_mGet, M.run_pure, M.run_mRemove, hsym, Bool.not_true,
    Bool.and_false, Bool.false_eq_true, if_false, if_true]
  rw [removeFs_symlink s _ t h]

theorem run_unshareBody_not_symlink (rel : List Str) (n : Nat) (w : FsPath) (s : FS)
    (h : s.is_symlink (w.join (.ofComps rel)) = false) :
    M.run (unshareBody rel n w) s = .ok (n, s) := by
  unfold unshareBody
  cases hex : s.pathExists (w.join (.ofComps rel)) with
  | true =>
    simp only [M.run_bind, M.run_mGet, M.run_pure, hex, h, Bool.not_true, Bool.not_false,
      Bool.false_and, Bool.false_eq_true, if_false]
  | false =>
    simp only [M.run_bind, M.run_mGet, M.run_pure, hex, h, Bool.not_false, Bool.and_self,
      if_true]

theorem unshare_loop_all (rel : List Str) (hro : (FsPath.ofComps rel).isAbs = false)
    (ws : List FsPath) :
    ∀ (s : FS) (n : Nat), ws.Nodup →
    (∀ w ∈ ws, s.is_symlink (w.join (.ofComps rel)) = true) →
    ∃ s1, M.run (List.foldlM (unshareBody rel) n ws) s = .ok (n + ws.length, s1) ∧
      (∀ w ∈ ws, s1.lookup (w.join (.ofComps rel)) = none) ∧
      (∀ q : FsPath, (∀ w ∈ ws, q ≠ w.join (.ofComps rel)) →
        s1.lookup q = s.lookup q) := by
  induction ws with
  | nil =>
    intro s n _ _
    exact ⟨s, by rw [run_foldlM_nil]; simp, by simp, fun q _ => rfl⟩
  | cons w ws ih =>
    intro s n hnd hsym
    obtain ⟨t, ht⟩ := lookup_symlink_of_is_symlink s _ (hsym w (by simp))
    have hbody := run_unshareBody_symlink rel n w s t ht
    have hwne : w ∉ ws := (List.nodup_cons.mp hnd).1
    have hndtail : ws.Nodup := (List.nodup_cons.mp hnd).2
    have hsymtail : ∀ w2 ∈ ws,
        FS.is_symlink (s.removeKey (w.join (.ofComps rel)))
          (w2.join (.ofComps rel)) = true := by
      intro w2 hw2
      have hne : w2.join (.ofComps rel) ≠ w.join (.ofComps rel) := by
        intro hEq
        exact hwne ((join_rel_inj w2 w _ hro hEq) ▸ hw2)
      rw [is_symlink_congr _ s _ (lookup_filter_other s _ _ hne)]
      exact hsym w2 (by simp [hw2])
    obtain ⟨s1, hrun, hnone, hpres⟩ := ih _ (n + 1) hndtail hsymtail
    refine ⟨s1, ?_, ?_, ?_⟩
    · rw [run_foldlM_cons, hbody]
      simp only
      rw [hrun]
      have harith : n + 1 + ws.length = n + (w :: ws).length := by
        simp only [List.length_cons]
        omega
      rw [harith]
    · intro w2 hw2
      rcases List.mem_cons.mp hw2 with h1 | h2
      · subst h1
        have hq : ∀ w3 ∈ ws, w2.join (.ofComps rel) ≠ w3.join (.ofComps rel) := by
          intro w3 hw3 hEq
          exact hwne ((join_rel_inj w2 w3 _ hro hEq) ▸ hw3)
        rw [hpres _ hq]
        exact lookup_filter_self s _
      · exact hnone w2 h2
    · intro q hq
      rw [hpres q (fun w2 hw2 => hq w2 (by simp [hw2]))]
      exact lookup_filter_other s _ q (hq w (by simp))

theorem unshare_loop_none (rel : List Str) (ws : List FsPath) :
    ∀ (s : FS) (n : Nat),
    (∀ w ∈ ws, s.is_symlink (w.join (.ofComps rel)) = false) →
    M.run (List.foldlM (unshareBody rel) n ws) s = .ok (n, s) := by
  induction ws with
  | nil => intro s n _; rw [run_foldlM_nil]
  | cons w ws ih =>
    intro s n hsym
    rw [run_foldlM_cons, run_unshareBody_not_symlink rel n w s (hsym w (by simp))]
    simp only
    exact ih s n (fun w2 hw2 => hsym w2 (by simp [hw2]))

/-- C4: when every scanned worktree holds a symbolic link at the
repo-relative path, unshare returns exactly the number of worktrees, every
link is removed, and every other entry — in particular the shared-storage
copy — is left unchanged; when no scanned worktree holds a symlink there,
unshare returns 0 without error and without mutation. -/
theorem C4_theorem (sr : SharedResource) (fs : FS) (rr rp file : FsPath)
    (rel : List Str) (ws : List FsPath)
    (hn : fs.normalize rp fs.cwd = .ok file)
    (hs : file.stripPre rr = some rel)
    (hro : (FsPath.ofComps rel).isAbs = false)
    (hws : scan_worktrees fs sr.root sr.repo_info = .ok ws)
    (hnd : ws.Nodup) :
    ((∀ w ∈ ws, fs.is_symlink (w.join (.ofComps rel)) = true) →
      ∃ s1, (sr.unshare rr rp).run fs = .ok (ws.length, s1) ∧
        (∀ w ∈ ws, s1.lookup (w.join (.ofComps rel)) = none) ∧
        (∀ q : FsPath, (∀ w ∈ ws, q ≠ w.join (.ofComps rel)) →
          s1.lookup q = fs.lookup q)) ∧
    ((∀ w ∈ ws, fs.is_symlink (w.join (.ofComps rel)) = false) →
      (sr.unshare rr rp).run fs = .ok (0, fs)) := by
  constructor
  · intro hsym
    obtain ⟨s1, hrun, hnone, hpres⟩ :=
      unshare_loop_all rel hro ws fs 0 hnd hsym
    refine ⟨s1, ?_, hnone, hpres⟩
    unfold SharedResource.unshare
    simp only [M.run_bind, M.run_mCurrentDir, M.run_mNormalize, M.run_mScanWorktrees,
      hn, hs, hws]
    rw [hrun]
    simp
  · intro hsym
    unfold SharedResource.unshare
    simp only [M.run_bind, M.run_mCurrentDir, M.run_mNormalize, M.run_mScanWorktrees,
      hn, hs, hws]
    exact unshare_loop_none rel ws fs 0 hsym

/-- C4 witness: unsharing the fixture file shared across the two worktrees
returns 2 and leaves every non-link entry, the shared copy included, in
place. -/
theorem C4_witness :
    ∃ s1, (exSr.unshare exMain ⟨false, [ "secrets.env".data ]⟩).run exFsLinked =
        .ok ([exMain, exFeat].length, s1) ∧
      (∀ w ∈ [exMain, exFeat],
        s1.lookup (w.join (.ofComps [ "secrets.env".data ])) = none) ∧
      (∀ q : FsPath, (∀ w ∈ [exMain, exFeat],
          q ≠ w.join (.ofComps [ "secrets.env".data ])) →
        s1.lookup q = exFsLinked.lookup q) :=
  (C4_theorem exSr exFsLinked exMain ⟨false, [ "secrets.env".data ]⟩
    (exMain.join ⟨false, [ "secrets.env".data ]⟩) [ "secrets.env".data ]
    [exMain, exFeat]
    (by decide) (by decide) (by decide) (by decide) (by decide)).1 (by decide)

/-! Claim C1: where share places the worktree links. -/

theorem isUnder_self (p : FsPath) : p.isUnder p = true := by
  unfold FsPath.isUnder
  rw [ List.isPrefixOf_iff_prefix]

theorem ne_of_not_isUnder (q t : FsPath) (h : q.isUnder t = false) : q ≠ t := by
  intro hEq
  rw [hEq, isUnder_self t] at h
  exact Bool.noConfusion h

theorem find?_append_none (E F : List (FsPath × FsEntry))
    (pred : FsPath × FsEntry → Bool) (h : E.find? pred = none) :
    (E ++ F).find? pred = F.find? pred := by
  induction E with
  | nil => rfl
  | cons e es ih =>
    cases hp : pred e with
    | true => rw [List.find?_cons_of_pos _ hp] at h; simp at h
    | false =>
      rw [List.find?_cons_of_neg _ (by simp [hp])] at h
      rw [List.cons_append, List.find?_cons_of_neg _ (by simp [hp])]
      exact ih h

theorem lookup_insertEntry_self (fs : FS) (p : FsPath) (e : FsEntry) :
    (fs.insertEntry p e).lookup p = some e := by
  unfold FS.insertEntry FS.lookup
  simp only
  rw [find?_append_none _ _ _ (find?_filter_ne_self fs.entries p)]
  simp [List.find?]

theorem find?_filter_append_other (E : List (FsPath × FsEntry)) (p q : FsPath)
    (e : FsEntry) (hq : q ≠ p) :
    ((E.filter (fun x => x.1 ≠ p)) ++ [(p, e)]).find? (fun x => x.1 = q) =
      E.find? (fun x => x.1 = q) := by
  induction E with
  | nil =>
    simp only [List.filter_nil, List.nil_append]
    rw [List.find?_cons_of_neg _ (by simp; exact fun h => hq h.symm)]
  | cons a E ih =>
    by_cases ha : a.1 = p
    · simp only [List.filter_cons]
      rw [if_neg (by simp [ha])]
      rw [List.find?_cons_of_neg _ (by
        simp only [decide_eq_true_eq]
        intro hEq
        exact hq (by rw [← hEq, ha]))]
      exact ih
    · simp only [List.filter_cons]
      rw [if_pos (by simp [ha])]
      by_cases haq : a.1 = q
      · rw [List.cons_append, List.find?_cons_of_pos _ (by simp [haq]),
          List.find?_cons_of_pos _ (by simp [haq])]
      · rw [List.cons_append, List.find?_cons_of_neg _ (by simp [haq]),
          List.find?_cons_of_neg _ (by simp [haq])]
        exact ih

theorem lookup_insertEntry_other (fs : FS) (p : FsPath) (e : FsEntry)
    (q : FsPath) (hq : q ≠ p) :
    (fs.insertEntry p e).lookup q = fs.lookup q := by
  unfold FS.insertEntry FS.lookup
  simp only
  rw [find?_filter_append_other fs.entries p q e hq]

theorem lookup_create_symlink_self (fs : FS) (t l : FsPath) :
    (fs.create_symlink t l).lookup l = some (.symlink t) :=
  lookup_insertEntry_self fs l (.symlink t)

theorem lookup_create_symlink_other (fs : FS) (t l q : FsPath) (hq : q ≠ l) :
    (fs.create_symlink t l).lookup q = fs.lookup q :=
  lookup_insertEntry_other fs l (.symlink t) q hq

theorem find?_filter_not_under (E : List (FsPath × FsEntry)) (t q : FsPath)
    (hq : q.isUnder t = false) :
    (E.filter (fun e => ¬ e.1.isUnder t)).find? (fun e => e.1 = q) =
      E.find? (fun e => e.1 = q) := by
  induction E with
  | nil => rfl
  | cons a E ih =>
    by_cases ha : a.1.isUnder t = true
    · simp only [List.filter_cons]
      rw [if_neg (by simp [ha])]
      rw [List.find?_cons_of_neg _ (by
        simp only [decide_eq_true_eq]
        intro hEq
        rw [hEq] at ha
        rw [ha] at hq
        exact Bool.noConfusion hq)]
      exact ih
    · simp only [List.filter_cons]
      rw [if_pos (by simp [ha])]
      by_cases haq : a.1 = q
      · rw [List.find?_cons_of_pos _ (by simp [haq]),
          List.find?_cons_of_pos _ (by simp [haq])]
      · rw [List.find?_cons_of_neg _ (by simp [haq]),
          List.find?_cons_of_neg _ (by simp [haq])]
        exact ih

theorem lookup_removeSub (fs : FS) (t q : FsPath) (hq : q.isUnder t = false) :
    (fs.removeSub t).lookup q = fs.lookup q := by
  unfold FS.removeSub FS.lookup
  simp only
  rw [find?_filter_not_under fs.entries t q hq]

theorem removeFs_dir (fs : FS) (p : FsPath) (h : fs.lookup p = some .dir) :
    fs.removeFs p = .ok (fs.removeSub p) := by
  unfold FS.removeFs FS.removeSub
  rw [h]

theorem removeFs_file (fs : FS) (p : FsPath) (h : fs.lookup p = some .file) :
    fs.removeFs p = .ok (fs.removeKey p) := by
  unfold FS.removeFs FS.removeKey
  rw [h]

theorem run_shareBody (sp rp w : FsPath) (s : FS) :
    ∃ s2, M.run (shareBody sp rp w) s = .ok ((), s2) ∧
      s2.lookup (w.join rp) = some (.symlink sp) ∧
      ∀ q : FsPath, q.isUnder (w.join rp) = false → s2.lookup q = s.lookup q := by
  unfold shareBody
  cases hb : (s.pathExists (w.join rp) || s.is_symlink (w.join rp)) with
  | false =>
    refine ⟨s.create_symlink sp (w.join rp), ?_, ?_, ?_⟩
    · simp only [M.run_bind, M.run_mGet, M.run_pure, hb, Bool.false_eq_true,
        if_false, M.run_mCreateSymlink]
    · exact lookup_create_symlink_self s sp (w.join rp)
    · intro q hq
      exact lookup_create_symlink_other s sp (w.join rp) q (ne_of_not_isUnder q _ hq)
  | true =>
    have hor : s.pathExists (w.join rp) = true ∨ s.is_symlink (w.join rp) = true := by
      cases hpe : s.pathExists (w.join rp) with
      | true => exact Or.inl rfl
      | false =>
        right
        rw [hpe] at hb
        simpa using hb
    have hle : ∃ e, s.lookup (w.join rp) = some e := by
      rcases hor with h1 | h1
      · exact lookup_some_of_pathExists s _ h1
      · obtain ⟨t2, ht2⟩ := lookup_symlink_of_is_symlink s _ h1
        exact ⟨_, ht2⟩
    obtain ⟨e, he⟩ := hle
    cases e with
    | dir =>
      have hrm := removeFs_dir s (w.join rp) he
      refine ⟨(s.removeSub (w.join rp)).create_symlink sp (w.join rp), ?_, ?_, ?_⟩
      · simp only [M.run_bind, M.run_mGet, M.run_pure, hb, if_true,
          M.run_mRemove, hrm, M.run_mCreateSymlink]
      · exact lookup_create_symlink_self _ sp (w.join rp)
      · intro q hq
        rw [lookup_create_symlink_other _ sp (w.join rp) q (ne_of_not_isUnder q _ hq)]
        exact lookup_removeSub s (w.join rp) q hq
    | file =>
      have hrm := removeFs_file s (w.join rp) he
      refine ⟨(s.removeKey (w.join rp)).create_symlink sp (w.join rp), ?_, ?_, ?_⟩
      · simp only [M.run_bind, M.run_mGet, M.run_pure, hb, if_true,
          M.run_mRemove, hrm, M.run_mCreateSymlink]
      · exact lookup_create_symlink_self _ sp (w.join rp)
      · intro q hq
        rw [lookup_create_symlink_other _ sp (w.join rp) q (ne_of_not_isUnder q _ hq)]
        exact lookup_filter_other s (w.join rp) q (ne_of_not_isUnder q _ hq)
    | symlink t2 =>
      have hrm := removeFs_symlink s (w.join rp) t2 he
      refine ⟨(s.removeKey (w.join rp)).create_symlink sp (w.join rp), ?_, ?_, ?_⟩
      · simp only [M.run_bind, M.run_mGet, M.run_pure, hb, if_true,
          M.run_mRemove, hrm, M.run_mCreateSymlink]
      · exact lookup_create_symlink_self _ sp (w.join rp)
      · intro q hq
        rw [lookup_create_symlink_other _ sp (w.join rp) q (ne_of_not_isUnder q _ hq)]
        exact lookup_filter_other s (w.join rp) q (ne_of_not_isUnder q _ hq)

theorem share_loop (sp rp : FsPath) :
    ∀ ws : List FsPath, ws.Nodup →
    (∀ w ∈ ws, ∀ w2 ∈ ws, w ≠ w2 → (w.join rp).isUnder (w2.join rp) = false) →
    ∀ s : FS, ∃ s1, M.run (mFor ws (shareBody sp rp)) s = .ok ((), s1) ∧
      (∀ w ∈ ws, s1.lookup (w.join rp) = some (.symlink sp)) ∧
      (∀ q : FsPath, (∀ w ∈ ws, q.isUnder (w.join rp) = false) →
        s1.lookup q = s.lookup q) := by
  intro ws
  induction ws with
  | nil =>
    intro _ _ s
    exact ⟨s, run_mFor_nil _ s, by simp, fun q _ => rfl⟩
  | cons w ws ih =>
    intro hnd hsep s
    obtain ⟨s2, hrun2, hlk2, hpres2⟩ := run_shareBody sp rp w s
    have hwne : w ∉ ws := (List.nodup_cons.mp hnd).1
    have hndt : ws.Nodup := (List.nodup_cons.mp hnd).2
    have hsept : ∀ w1 ∈ ws, ∀ w2 ∈ ws, w1 ≠ w2 →
        (w1.join rp).isUnder (w2.join rp) = false := by
      intro w1 h1 w2 h2 hne
      exact hsep w1 (by simp [h1]) w2 (by simp [h2]) hne
    obtain ⟨s1, hrun1, hlk1, hpres1⟩ := ih hndt hsept s2
    refine ⟨s1, ?_, ?_, ?_⟩
    · rw [run_mFor_cons_ok _ _ _ _ _ s2 hrun2]
      exact hrun1
    · intro w2 hw2
      rcases List.mem_cons.mp hw2 with h1 | h2
      · subst h1
        have hcond : ∀ w3 ∈ ws, (w2.join rp).isUnder (w3.join rp) = false := by
          intro w3 hw3
          refine hsep w2 (by simp) w3 (by simp [hw3]) ?_
          intro hEq
          apply hwne
          rw [hEq]
          exact hw3
        rw [hpres1 (w2.join rp) hcond]
        exact hlk2
      · exact hlk1 w2 h2
    · intro q hq
      rw [hpres1 q (fun w2 hw2 => hq w2 (by simp [hw2]))]
      exact hpres2 q (hq w (by simp))

/-- C1 counterexample: sharing sub/config.json from inside the sub
directory of the main worktree succeeds, yet the other worktree receives
no entry at its repo-relative path sub/config.json — the link is created
at the caller-supplied relative path config.json instead.  The claim
placed the link at the repo-relative path for every caller current
directory. -/
theorem C1_counterexample :
    exFsSub.normalize ⟨false, [ "config.json".data ]⟩ exFsSub.cwd =
        .ok (exMain.join ⟨false, [ "sub".data, "config.json".data ]⟩) ∧
      (exMain.join ⟨false, [ "sub".data, "config.json".data ]⟩).stripPre exMain =
        some [ "sub".data, "config.json".data ] ∧
      (okState ((exSr.share exMain ⟨false, [ "config.json".data ]⟩).run exFsSub)).map
        (fun s =>
          (s.lookup (exFeat.join ⟨false, [ "sub".data, "config.json".data ]⟩),
           s.lookup (exFeat.join ⟨false, [ "config.json".data ]⟩))) =
        some (none, some (.symlink exSharedSubCfg)) := by
  refine ⟨by decide, by decide, by decide⟩

/-- C1 (amended): on a non-symlink source that exists, share creates the
shared parent directory, removes whatever previously occupied the shared
destination (last share wins), moves the source there, and leaves, in
every scanned worktree, a fresh symbolic link to the shared copy at
worktree.join(relative_path) — the caller-supplied path, which coincides
with the repo-relative path only when the caller stands at repo_root —
replacing whatever occupied that path, and leaves every path not under
one of those link targets exactly as the post-move intermediate state has
it.  The destination-occupancy disjunction below only names the
intermediate state: an occupied destination always removes successfully,
so no state with an existing non-symlink source is excluded. -/
theorem C1_theorem (sr : SharedResource) (fs : FS) (rr rp file sp spParent : FsPath)
    (rel : List Str) (fsPre fsMid : FS) (ws : List FsPath)
    (hn : fs.normalize rp fs.cwd = .ok file)
    (hs : file.stripPre rr = some rel)
    (hsp : sr.repo_info.build_shared_path sr.root (.ofComps rel) = sp)
    (hex : fs.pathExists file = true)
    (hnl : fs.is_symlink file = false)
    (hpar : sp.parent? = some spParent)
    (hov : ((fs.create_dir spParent).pathExists sp = false ∧
        fsPre = fs.create_dir spParent) ∨
      ((fs.create_dir spParent).pathExists sp = true ∧
        (fs.create_dir spParent).removeFs sp = .ok fsPre))
    (hmid : fsPre.renameFs file sp = .ok fsMid)
    (hws : scan_worktrees fsMid sr.root sr.repo_info = .ok ws)
    (hnd : ws.Nodup)
    (hsep : ∀ w ∈ ws, ∀ w2 ∈ ws, w ≠ w2 → (w.join rp).isUnder (w2.join rp) = false) :
    ∃ s1, (sr.share rr rp).run fs = .ok ((), s1) ∧
      (∀ w ∈ ws, s1.lookup (w.join rp) = some (.symlink sp)) ∧
      (∀ q : FsPath, (∀ w ∈ ws, q.isUnder (w.join rp) = false) →
        s1.lookup q = fsMid.lookup q) := by
  obtain ⟨s1, hrun, hlink, hpres⟩ := share_loop sp rp ws hnd hsep fsMid
  refine ⟨s1, ?_, hlink, hpres⟩
  unfold SharedResource.share
  rcases hov with ⟨hno, hfp⟩ | ⟨hyes, hrm⟩
  · subst hfp
    simp only [M.run_bind, M.run_mCurrentDir, M.run_mNormalize, M.run_mGet, M.run_pure,
      hn, hs, hsp, hex, hnl, Bool.not_true, Bool.false_eq_true, if_false, if_true,
      hpar, M.run_mCreateDir, hno, M.run_mRename, hmid, M.run_mScanWorktrees, hws]
    exact hrun
  · simp only [M.run_bind, M.run_mCurrentDir, M.run_mNormalize, M.run_mGet, M.run_pure,
      hn, hs, hsp, hex, hnl, Bool.not_true, Bool.false_eq_true, if_false, if_true,
      hpar, M.run_mCreateDir, hyes, M.run_mRemove, hrm, M.run_mRename, hmid,
      M.run_mScanWorktrees, hws]
    exact hrun

/-- C1 witness: the amended theorem on the fixture in which a stale file
already occupies the shared destination, exercising the overwrite branch:
share removes the stale copy, moves the source, links both worktrees at
secrets.env, and everything off the link targets matches the post-move
intermediate state. -/
theorem C1_witness :
    ∃ s1, (exSr.share exMain ⟨false, [ "secrets.env".data ]⟩).run exFsStale =
        .ok ((), s1) ∧
      (∀ w ∈ [exMain, exFeat],
        s1.lookup (w.join ⟨false, [ "secrets.env".data ]⟩) =
          some (.symlink exSharedEnv)) ∧
      (∀ q : FsPath, (∀ w ∈ [exMain, exFeat],
          q.isUnder (w.join ⟨false, [ "secrets.env".data ]⟩) = false) →
        s1.lookup q = exFsMid.lookup q) :=
  C1_theorem exSr exFsStale exMain ⟨false, [ "secrets.env".data ]⟩
    (exMain.join ⟨false, [ "secrets.env".data ]⟩) exSharedEnv
    ⟨true, [ "grm".data, ".shared".data, "github.com".data, "acme".data,
      "widgets".data ]⟩
    [ "secrets.env".data ] exFsPre exFsMid [exMain, exFeat]
    (by decide) (by decide) (by decide) (by decide) (by decide) (by decide)
    (Or.inr ⟨by decide, by decide⟩) (by decide) (by decide) (by decide) (by decide)

/-! Claim C9: full characterization of scan_repositories. -/

theorem fsPathExt (p q : FsPath) (hab : p.isAbs = q.isAbs)
    (hc : p.comps = q.comps) : p = q := by
  cases p
  cases q
  simp only at hab hc
  simp [hab, hc]

theorem scanDirs_ok_sub (fs : FS) (rec : FsPath → Except GrmError (List FsPath)) :
    ∀ (ds l : List FsPath), scanDirs fs rec ds = .ok l →
    ∀ d ∈ ds, fs.is_git_repository d = false → ∃ sub, rec d = .ok sub := by
  intro ds
  induction ds with
  | nil =>
    intro l _ d hd
    simp at hd
  | cons d0 ds ih =>
    intro l hok d hd hgit
    simp only [scanDirs] at hok
    rcases List.mem_cons.mp hd with h1 | h2
    · subst h1
      rw [if_neg (by simp [hgit])] at hok
      cases hr : rec d with
      | error e => rw [hr] at hok; simp at hok
      | ok sub => exact ⟨sub, rfl⟩
    · by_cases hg0 : fs.is_git_repository d0 = true
      · rw [if_pos hg0] at hok
        cases ht : scanDirs fs rec ds with
        | error e => rw [ht] at hok; simp at hok
        | ok rest => exact ih rest ht d h2 hgit
      · rw [if_neg hg0] at hok
        cases hr : rec d0 with
        | error e => rw [hr] at hok; simp at hok
        | ok sub =>
          rw [hr] at hok
          simp only at hok
          cases ht : scanDirs fs rec ds with
          | error e => rw [ht] at hok; simp at hok
          | ok rest => exact ih rest ht d h2 hgit

theorem scanDirs_mem (fs : FS) (rec : FsPath → Except GrmError (List FsPath)) :
    ∀ (ds l : List FsPath), scanDirs fs rec ds = .ok l →
    ∀ q, q ∈ l ↔ ∃ d ∈ ds, (fs.is_git_repository d = true ∧ q = d) ∨
      (fs.is_git_repository d = false ∧ ∃ sub, rec d = .ok sub ∧ q ∈ sub) := by
  intro ds
  induction ds with
  | nil =>
    intro l hok q
    simp only [scanDirs] at hok
    have hl : l = [] := (Except.ok.inj hok).symm
    subst hl
    simp
  | cons d0 ds ih =>
    intro l hok q
    simp only [scanDirs] at hok
    by_cases hg0 : fs.is_git_repository d0 = true
    · rw [if_pos hg0] at hok
      cases ht : scanDirs fs rec ds with
      | error e => rw [ht] at hok; simp at hok
      | ok rest =>
        rw [ht] at hok
        simp only at hok
        have hl : l = d0 :: rest := (Except.ok.inj hok).symm
        subst hl
        constructor
        · intro hq
          rcases List.mem_cons.mp hq with h1 | h2
          · exact ⟨d0, by simp, Or.inl ⟨hg0, h1⟩⟩
          · obtain ⟨d, hd, hcase⟩ := (ih rest ht q).mp h2
            exact ⟨d, by simp [hd], hcase⟩
        · rintro ⟨d, hd, hcase⟩
          rcases List.mem_cons.mp hd with h1 | h2
          · subst h1
            rcases hcase with ⟨_, hq⟩ | ⟨hgf, _⟩
            · simp [hq]
            · simp [hg0] at hgf
          · exact List.mem_cons_of_mem d0 ((ih rest ht q).mpr ⟨d, h2, hcase⟩)
    · rw [if_neg hg0] at hok
      have hg0f : fs.is_git_repository d0 = false := by simpa using hg0
      cases hr : rec d0 with
      | error e => rw [hr] at hok; simp at hok
      | ok sub =>
        rw [hr] at hok
        simp only at hok
        cases ht : scanDirs fs rec ds with
        | error e => rw [ht] at hok; simp at hok
        | ok rest =>
          rw [ht] at hok
          simp only at hok
          have hl : l = sub ++ rest := (Except.ok.inj hok).symm
          subst hl
          constructor
          · intro hq
            rcases List.mem_append.mp hq with h1 | h2
            · exact ⟨d0, by simp, Or.inr ⟨hg0f, sub, hr, h1⟩⟩
            · obtain ⟨d, hd, hcase⟩ := (ih rest ht q).mp h2
              exact ⟨d, by simp [hd], hcase⟩
          · rintro ⟨d, hd, hcase⟩
            rcases List.mem_cons.mp hd with h1 | h2
            · subst h1
              rcases hcase with ⟨hgt, _⟩ | ⟨_, sub2, hr2, hq2⟩
              · simp [hgt] at hg0f
              · rw [hr] at hr2
                have hss : sub2 = sub := (Except.ok.inj hr2).symm
                subst hss
                exact List.mem_append.mpr (Or.inl hq2)
            · exact List.mem_append.mpr (Or.inr ((ih rest ht q).mpr ⟨d, h2, hcase⟩))

theorem scanRepos_mem (fs : FS) :
    ∀ (n : Nat) (p : FsPath) (l : List FsPath), scanRepos fs n p = .ok l →
    ∀ q, q ∈ l ↔ ScanReach fs p q := by
  intro n
  induction n with
  | zero =>
    intro p l hok
    simp [scanRepos] at hok
  | succ n ih =>
    intro p l hok q
    simp only [scanRepos] at hok
    cases hrd : fs.readDir p with
    | error e => rw [hrd] at hok; simp at hok
    | ok entries =>
      rw [hrd] at hok
      simp only at hok
      have hRDL : readDirList fs p = entries := by
        unfold readDirList
        rw [hrd]
      have hmem := scanDirs_mem fs (scanRepos fs n) _ l hok q
      rw [hmem]
      constructor
      · rintro ⟨d, hd, hcase⟩
        have hd2 := List.mem_filter.mp hd
        have hdp : d ∈ readDirList fs p := by rw [hRDL]; exact hd2.1
        have hflt : fs.is_symlink d = false ∧ fs.is_dir d = true := by
          have hflat := hd2.2
          simp only [Bool.and_eq_true, Bool.not_eq_true'] at hflat
          exact hflat
        rcases hcase with ⟨hgit, hq⟩ | ⟨hgit, sub, hsub, hq⟩
        · subst hq
          exact ScanReach.repo p q hdp hflt.1 hflt.2 hgit
        · exact ScanReach.deeper p d q hdp hflt.1 hflt.2 hgit ((ih d sub hsub q).mp hq)
      · intro hreach
        cases hreach with
        | repo _ _ hq hsym hdir hgit =>
          refine ⟨q, ?_, Or.inl ⟨hgit, rfl⟩⟩
          apply List.mem_filter.mpr
          refine ⟨by rw [← hRDL]; exact hq, by simp [hsym, hdir]⟩
        | deeper _ d _ hd hsym hdir hgit hrest =>
          have hdfil : d ∈ entries.filter (fun q2 => !fs.is_symlink q2 && fs.is_dir q2) :=
            List.mem_filter.mpr ⟨by rw [← hRDL]; exact hd, by simp [hsym, hdir]⟩
          obtain ⟨sub, hsub⟩ := scanDirs_ok_sub fs (scanRepos fs n) _ l hok d hdfil hgit
          exact ⟨d, hdfil, Or.inr ⟨hgit, sub, hsub, (ih d sub hsub q).mpr hrest⟩⟩

theorem scanRepos_readDir_ok (fs : FS) (n : Nat) (p : FsPath) (l : List FsPath)
    (h : scanRepos fs (n + 1) p = .ok l) : ∃ ents, fs.readDir p = .ok ents := by
  simp only [scanRepos] at h
  cases hrd : fs.readDir p with
  | error e => rw [hrd] at h; simp at h
  | ok ents => exact ⟨ents, rfl⟩

theorem scanRepos_child_ok (fs : FS) (n : Nat) (p d : FsPath) (l : List FsPath)
    (h : scanRepos fs (n + 1) p = .ok l) (hd : d ∈ readDirList fs p)
    (hsym : fs.is_symlink d = false) (hdir : fs.is_dir d = true)
    (hgit : fs.is_git_repository d = false) :
    ∃ sub, scanRepos fs n d = .ok sub := by
  simp only [scanRepos] at h
  cases hrd : fs.readDir p with
  | error e => rw [hrd] at h; simp at h
  | ok entries =>
    rw [hrd] at h
    simp only at h
    have hRDL : readDirList fs p = entries := by
      unfold readDirList
      rw [hrd]
    have hdf : d ∈ entries.filter (fun q => !fs.is_symlink q && fs.is_dir q) :=
      List.mem_filter.mpr ⟨by rw [← hRDL]; exact hd, by simp [hsym, hdir]⟩
    exact scanDirs_ok_sub fs (scanRepos fs n) _ l h d hdf hgit

theorem scanVisit_ok (fs : FS) (root : FsPath) (n : Nat) (l : List FsPath)
    (h : scanRepos fs n root = .ok l) :
    ∀ d, ScanVisit fs root d → ∃ m sub, scanRepos fs m d = .ok sub := by
  intro d hv
  induction hv with
  | start => exact ⟨n, l, h⟩
  | step p d2 hvis hd hsym hdir hgit ih =>
    obtain ⟨m, sub, hm⟩ := ih
    cases m with
    | zero => simp [scanRepos] at hm
    | succ m2 =>
      obtain ⟨sub2, hs2⟩ := scanRepos_child_ok fs m2 p d2 sub hm hd hsym hdir hgit
      exact ⟨m2, sub2, hs2⟩

theorem mem_readDirList_shape (fs : FS) (p q : FsPath) (h : q ∈ readDirList fs p) :
    ∃ x, q.comps = p.comps ++ [x] ∧ q.isAbs = p.isAbs := by
  unfold readDirList at h
  cases hrd : fs.readDir p with
  | error e => rw [hrd] at h; simp at h
  | ok l0 =>
    rw [hrd] at h
    simp only at h
    unfold FS.readDir at hrd
    cases hlk : fs.lookup p with
    | none => rw [hlk] at hrd; simp at hrd
    | some e =>
      cases e with
      | file => rw [hlk] at hrd; simp at hrd
      | symlink t => rw [hlk] at hrd; simp at hrd
      | dir =>
        rw [hlk] at hrd
        simp only at hrd
        have hl0 : l0 = (fs.entries.filter (fun e => e.1.parent? = some p)).map
            (fun e => e.1) := (Except.ok.inj hrd).symm
        subst hl0
        obtain ⟨en, hen, henq⟩ := List.mem_map.mp h
        have hpar := (List.mem_filter.mp hen).2
        rw [henq] at hpar
        simp only [decide_eq_true_eq] at hpar
        unfold FsPath.parent? at hpar
        cases hqc : q.comps with
        | nil => rw [hqc] at hpar; simp at hpar
        | cons c cs =>
          rw [hqc] at hpar
          simp only at hpar
          have hpe : p = ⟨q.isAbs, (c :: cs).dropLast⟩ := (Option.some.inj hpar).symm
          have hne : q.comps ≠ [] := by rw [hqc]; simp
          refine ⟨q.comps.getLast hne, ?_, ?_⟩
          · rw [hpe]
            rw [← hqc]
            show q.comps = q.comps.dropLast ++ [q.comps.getLast hne]
            exact (List.dropLast_append_getLast hne).symm
          · rw [hpe]

theorem scanReach_ext (fs : FS) (p q : FsPath) (h : ScanReach fs p q) :
    ∃ ext, ext ≠ [] ∧ q.isAbs = p.isAbs ∧ q.comps = p.comps ++ ext := by
  induction h with
  | repo p2 q2 hq _ _ _ =>
    obtain ⟨x, hx, hab⟩ := mem_readDirList_shape fs p2 q2 hq
    exact ⟨[x], by simp, hab, hx⟩
  | deeper p2 d q2 hd _ _ _ _ ih =>
    obtain ⟨x, hx, hab⟩ := mem_readDirList_shape fs p2 d hd
    obtain ⟨ext, hne, hab2, hcomps⟩ := ih
    refine ⟨x :: ext, by simp, hab2.trans hab, ?_⟩
    rw [hcomps, hx]
    simp

theorem scanReach_endpoint (fs : FS) (p q : FsPath) (h : ScanReach fs p q) :
    fs.is_git_repository q = true ∧ fs.is_symlink q = false ∧ fs.is_dir q = true := by
  induction h with
  | repo _ _ _ hsym hdir hgit => exact ⟨hgit, hsym, hdir⟩
  | deeper _ _ _ _ _ _ _ _ ih => exact ih

theorem scanReach_between (fs : FS) (p q : FsPath) (h : ScanReach fs p q) :
    ∀ r : FsPath, r.isAbs = p.isAbs → p.comps <+: r.comps → r.comps <+: q.comps →
    r ≠ p → r ≠ q → fs.is_git_repository r = false := by
  induction h with
  | repo p2 q2 hq hsym hdir hgit =>
    intro r hab h1 h2 hrp hrq
    exfalso
    obtain ⟨x, hx, habq⟩ := mem_readDirList_shape fs p2 q2 hq
    have hl1 : p2.comps.length ≤ r.comps.length := h1.length_le
    have hl2 : r.comps.length ≤ q2.comps.length := h2.length_le
    have hlq : q2.comps.length = p2.comps.length + 1 := by rw [hx]; simp
    by_cases hcase : r.comps.length = p2.comps.length
    · have hc : p2.comps = r.comps := h1.eq_of_length hcase.symm
      exact hrp (fsPathExt r p2 hab hc.symm)
    · have hlen : r.comps.length = q2.comps.length := by omega
      have hc : r.comps = q2.comps := h2.eq_of_length hlen
      exact hrq (fsPathExt r q2 (hab.trans habq.symm) hc)
  | deeper p2 d q2 hd hsym hdir hgit hrest ih =>
    intro r hab h1 h2 hrp hrq
    obtain ⟨x, hx, habd⟩ := mem_readDirList_shape fs p2 d hd
    obtain ⟨ext, hne, habq, hcompsq⟩ := scanReach_ext fs d q2 hrest
    have hdpre : d.comps <+: q2.comps := ⟨ext, hcompsq.symm⟩
    have hdlen : d.comps.length = p2.comps.length + 1 := by rw [hx]; simp
    have hl1 : p2.comps.length ≤ r.comps.length := h1.length_le
    by_cases hcase : r.comps.length = p2.comps.length
    · exfalso
      have hc : p2.comps = r.comps := h1.eq_of_length hcase.symm
      exact hrp (fsPathExt r p2 hab hc.symm)
    · by_cases hcase2 : r.comps.length = p2.comps.length + 1
      · have hc : r.comps = d.comps := by
          rcases List.prefix_or_prefix_of_prefix h2 hdpre with hcc | hcc
          · exact hcc.eq_of_length (by omega)
          · exact (hcc.eq_of_length (by omega)).symm
        have hrd : r = d := fsPathExt r d (hab.trans habd.symm) hc
        rw [hrd]
        exact hgit
      · have hdr : d.comps <+: r.comps := by
          rcases List.prefix_or_prefix_of_prefix hdpre h2 with hcc | hcc
          · exact hcc
          · have hle := hcc.length_le
            exact absurd (hle.antisymm (by omega)) (by omega)
        refine ih r (hab.trans habd.symm) hdr h2 ?_ hrq
        intro hEq
        apply hcase2
        rw [hEq, hx]
        simp

theorem toComps_pre_iff (p q : FsPath) (hab : p.isAbs = q.isAbs) :
    (q.toComps <+: p.toComps) ↔ (q.comps <+: p.comps) := by
  unfold FsPath.toComps
  rw [hab]
  cases hq : q.isAbs with
  | false => simp
  | true => simp

/-- C9: an I/O failure listing the scan root aborts scan_repositories (and
scan_worktrees) with a scan error; a successful scan implies every listing
the traversal consulted succeeded (so no partial list is ever returned),
and the result holds exactly the directories reachable from the root
through non-symlink, non-repository directories that themselves directly
contain a .git entry — never symlinks, and never one nested inside another
returned path. -/
theorem C9_theorem (fs : FS) (root : FsPath) :
    (∀ e, fs.readDir root = .error e →
      scan_repositories fs root = .error (.scan e) ∧
      ∀ info, scan_worktrees fs root info = .error (.scan e)) ∧
    (∀ l, scan_repositories fs root = .ok l →
      (∀ d, ScanVisit fs root d → ∃ ents, fs.readDir d = .ok ents) ∧
      (∀ q, q ∈ l ↔ ScanReach fs root q) ∧
      (∀ q ∈ l, fs.is_symlink q = false ∧ fs.is_git_repository q = true) ∧
      (∀ q1 ∈ l, ∀ q2 ∈ l, q1 ≠ q2 → q1.isUnder q2 = false)) := by
  constructor
  · intro e he
    have hscan : scan_repositories fs root = .error (.scan e) := by
      have h2 : scanFuel fs =
          (fs.entries.map (fun e2 => e2.1.comps.length)).foldl max 0 + 1 + 1 := by
        unfold scanFuel
        omega
      unfold scan_repositories
      rw [h2]
      simp only [scanRepos]
      rw [he]
    refine ⟨hscan, ?_⟩
    intro info
    unfold scan_worktrees
    rw [hscan]
  · intro l hok
    have hiff := scanRepos_mem fs (scanFuel fs) root l hok
    refine ⟨?_, hiff, ?_, ?_⟩
    · intro d hv
      obtain ⟨m, sub, hm⟩ := scanVisit_ok fs root (scanFuel fs) l hok d hv
      cases m with
      | zero => simp [scanRepos] at hm
      | succ m2 => exact scanRepos_readDir_ok fs m2 d sub hm
    · intro q hq
      have hend := scanReach_endpoint fs root q ((hiff q).mp hq)
      exact ⟨hend.2.1, hend.1⟩
    · intro q1 hq1 q2 hq2 hne
      cases hb : q1.isUnder q2 with
      | false => rfl
      | true =>
        exfalso
        have hr1 := (hiff q1).mp hq1
        have hr2 := (hiff q2).mp hq2
        obtain ⟨e1, hne1, hab1, hc1⟩ := scanReach_ext fs root q1 hr1
        obtain ⟨e2, hne2, hab2, hc2⟩ := scanReach_ext fs root q2 hr2
        unfold FsPath.isUnder at hb
        have hpre := List.isPrefixOf_iff_prefix.mp hb
        have hpre2 : q2.comps <+: q1.comps :=
          (toComps_pre_iff q1 q2 (hab1.trans hab2.symm)).mp hpre
        have hq2root : q2 ≠ root := by
          intro hEq
          apply hne2
          have hcc : root.comps ++ e2 = root.comps := by
            rw [← hc2, hEq]
          have hlen := congrArg List.length hcc
          simp only [List.length_append] at hlen
          have he2 : e2.length = 0 := by omega
          exact List.length_eq_zero.mp he2
        have hgit2 : fs.is_git_repository q2 = false :=
          scanReach_between fs root q1 hr1 q2 hab2 ⟨e2, hc2.symm⟩ hpre2 hq2root
            (fun hEq => hne hEq.symm)
        have hgt := (scanReach_endpoint fs root q2 hr2).1
        rw [hgit2] at hgt
        cases hgt

/-- C9 witness: the characterization applied to the fixture tree, whose
scan returns exactly the two widgets worktrees. -/
theorem C9_witness :
    (∀ q ∈ [exMain, exFeat], exFs.is_symlink q = false ∧
      exFs.is_git_repository q = true) ∧
    exMain.isUnder exFeat = false := by
  have h := (C9_theorem exFs exRoot).2 [exMain, exFeat] (by decide)
  exact ⟨h.2.2.1, h.2.2.2 exMain (by simp) exFeat (by simp) (by decide)⟩

/-! Claim C8: scan_worktrees is the literal string-prefix filter. -/

theorem joinSep_append_cons (sep : Char) (A : List Str) (x : Str) (rest : List Str) :
    joinSep sep (A ++ x :: rest) =
      A.foldr (fun a acc => a ++ sep :: acc) [] ++ joinSep sep (x :: rest) := by
  induction A with
  | nil => simp
  | cons a A ih =>
    cases A with
    | nil =>
      simp only [List.nil_append, List.cons_append, joinSep_cons_cons, List.foldr]
      simp [ih]
    | cons a2 A2 =>
      simp only [List.cons_append, joinSep_cons_cons, List.foldr] at ih ⊢
      simp [ih]

theorem isPrefixOf_cancel (a b c : Str) :
    ((a ++ b).isPrefixOf (a ++ c)) = b.isPrefixOf c := by
  induction a with
  | nil => simp
  | cons x xs ih => simp [List.isPrefixOf, ih]

theorem isPrefixOf_cons_same (c : Char) (x y : Str) :
    ((c :: x).isPrefixOf (c :: y)) = x.isPrefixOf y := by
  simp [List.isPrefixOf]

theorem head_plus_of_isPrefixOf (t w : Str)
    (h : (['+'] : Str).isPrefixOf (t ++ w) = true) (htne : t ≠ []) :
    t.head? = some '+' := by
  cases t with
  | nil => exact absurd rfl htne
  | cons c t2 =>
    simp only [List.cons_append, List.isPrefixOf, List.isPrefixOf_nil_left,
      Bool.and_true, beq_iff_eq] at h
    rw [List.head?_cons]
    exact congrArg some h.symm

theorem build_repo_path_nil (root : FsPath) (info : RepoInfo)
    (hh : cleanComp info.host) (hu : cleanComp info.user)
    (hrne : info.repo ≠ []) (hrsl : '/' ∉ info.repo) :
    info.build_repo_path root [] =
      ⟨root.isAbs, root.comps ++ [info.host, info.user, info.repo ++ ['+']]⟩ := by
  unfold RepoInfo.build_repo_path
  rw [joinStr_clean root info.host hh, joinStr_clean _ info.user hu]
  have hcc : cleanComp (info.repo ++ '+' :: []) := by
    refine ⟨by simp, ?_, ?_⟩
    · cases hre : info.repo with
      | nil => exact absurd hre hrne
      | cons r rs =>
        intro hEq
        simp only [List.cons_append] at hEq
        exact absurd (List.cons.inj hEq).2 (by simp)
    · intro hm
      rcases List.mem_append.mp hm with h1 | h2
      · exact hrsl h1
      · simp at h2
  rw [joinStr_clean _ _ hcc]
  simp

/-- C8: scan_worktrees returns exactly the scanned repositories whose
rendered path starts with the rendered root/host/user/repo+ prefix; in
particular a repository whose name strictly extends repo with anything not
starting in '+' (such as repo2) is never returned. -/
theorem C8_theorem (fs : FS) (root : FsPath) (info : RepoInfo)
    (allRepos l : List FsPath)
    (hscan : scan_repositories fs root = .ok allRepos)
    (hwt : scan_worktrees fs root info = .ok l) :
    (∀ p, p ∈ l ↔ p ∈ allRepos ∧
      (info.build_repo_path root []).render.isPrefixOf p.render = true) ∧
    (∀ (t b : Str) (p : FsPath), t ≠ [] → t.head? ≠ some '+' →
      cleanComp info.host → cleanComp info.user →
      info.repo ≠ [] → '/' ∉ info.repo → cleanComp (info.repo ++ t) →
      (∀ c ∈ splitSep '/' b, c ≠ [] ∧ c ≠ ['.']) →
      p = RepoInfo.build_repo_path ⟨info.host, info.user, info.repo ++ t, none⟩ root b →
      p ∉ l) := by
  unfold scan_worktrees at hwt
  rw [hscan] at hwt
  simp only at hwt
  have hl : l = allRepos.filter
      (fun p => (info.build_repo_path root []).render.isPrefixOf p.render) :=
    (Except.ok.inj hwt).symm
  have hmem : ∀ p, p ∈ l ↔ p ∈ allRepos ∧
      (info.build_repo_path root []).render.isPrefixOf p.render = true := by
    intro p
    rw [hl]
    exact List.mem_filter
  refine ⟨hmem, ?_⟩
  intro t b p htne hthead hh hu hrne hrsl hext hb hp
  intro hmem2
  have hpre := ((hmem p).mp hmem2).2
  have hrtne : info.repo ++ t ≠ [] := by simp [hrne]
  have hrtsl : '/' ∉ info.repo ++ t := hext.2.2
  have hbuild1 : info.build_repo_path root [] =
      ⟨root.isAbs, root.comps ++ [info.host, info.user, info.repo ++ ['+']]⟩ :=
    build_repo_path_nil root info hh hu hrne hrsl
  have hbuild2 : p = ⟨root.isAbs, root.comps ++
      [info.host, info.user, (info.repo ++ t) ++ '+' :: (splitSep '/' b).headI] ++
      (splitSep '/' b).tail⟩ := by
    rw [hp]
    exact build_repo_path_comps root ⟨info.host, info.user, info.repo ++ t, none⟩ b
      hh hu hrtne hrtsl hb
  rw [hbuild1, hbuild2] at hpre
  unfold FsPath.render at hpre
  simp only [List.append_nil, List.append_assoc, List.cons_append, List.nil_append] at hpre
  rw [joinSep_append_cons '/' root.comps, joinSep_append_cons '/' root.comps] at hpre
  rw [joinSep_cons_cons, joinSep_cons_cons, joinSep_cons_cons, joinSep_cons_cons] at hpre
  simp only [joinSep, List.append_assoc, isPrefixOf_cancel, isPrefixOf_cons_same] at hpre
  cases htail : (splitSep '/' b).tail with
  | nil =>
    rw [htail] at hpre
    simp only [joinSep, List.append_assoc, isPrefixOf_cancel] at hpre
    exact hthead (head_plus_of_isPrefixOf t _ hpre htne)
  | cons z zs =>
    rw [htail] at hpre
    rw [joinSep_cons_cons] at hpre
    simp only [List.append_assoc, isPrefixOf_cancel] at hpre
    exact hthead (head_plus_of_isPrefixOf t _ hpre htne)

/-- C8 witness: on the fixture tree the worktree filter keeps exactly the
widgets worktrees, and the worktree path built for the extended repository
name widgets2 is not among them. -/
theorem C8_witness :
    RepoInfo.build_repo_path
        ⟨"github.com".data, "acme".data, "widgets".data ++ "2".data, none⟩
        exRoot ("main".data) ∉ [exMain, exFeat] :=
  (C8_theorem exFs exRoot exInfo [exMain, exFeat] [exMain, exFeat]
      (by decide) (by decide)).2
    ("2".data) ("main".data) _
    (by decide) (by decide) (by decide) (by decide) (by decide) (by decide)
    (by decide) (by decide) rfl

theorem C7_witness :
    ('/' ∉ (⟨"github.com".data, "user".data, "repo".data, none⟩ : RepoInfo).user ∧
      '/' ∉ (⟨"github.com".data, "user".data, "repo".data, none⟩ : RepoInfo).repo) ∧
    ((⟨"github.com".data, "acme".data, "widgets".data,
        some ("main".data)⟩ : RepoInfo).host ≠ [] ∧
      '/' ∉ (⟨"github.com".data, "acme".data, "widgets".data,
        some ("main".data)⟩ : RepoInfo).host ∧
      (⟨"github.com".data, "acme".data, "widgets".data,
        some ("main".data)⟩ : RepoInfo).user ≠ [] ∧
      '/' ∉ (⟨"github.com".data, "acme".data, "widgets".data,
        some ("main".data)⟩ : RepoInfo).user ∧
      '/' ∉ (⟨"github.com".data, "acme".data, "widgets".data,
        some ("main".data)⟩ : RepoInfo).repo) :=
  ⟨C7_theorem.1 ("https://github.com/user/repo.git".data) _ (by decide),
   C7_theorem.2 exRoot exMain _ (by decide) (by decide) (by decide)⟩

end Grm
